import Mathlib

/-!
Verification development for the KakaoTalk chat-export analyser
(src/kakaotalk.py).  The Python source is shallowly embedded below:

* the calendar arithmetic of Python's `datetime.date` / `datetime.timedelta` /
  `dateutil.relativedelta(months=1)` is modelled by `Date`, `toDays`,
  `nextDay`, `prevDay`, `addDays`, `addMonth`;
* `dateutil.parser.parse` (an external library) is modelled by
  `dateutilParse`, restricted to the zero-padded ISO-like grammar of the
  export files (`YYYY-MM-DD`, `YYYY-MM-DD HH:MM`, `YYYY-MM-DD HH:MM:SS`,
  with surrounding whitespace skipped, as the real parser does);
* `MessageExportAnalyser.parse_line` (lines 161-198) is `parseLine`;
* `MessageExportAnalyser.parse_file` (lines 122-159) is `parseFile`;
  the class-level containers `messages`/`senders` (lines 72-73) are the
  fields of `AnalyserState`, and `analyserRun` is the non-cache path of
  `__init__`, which parses the discovered files in order against those
  class-level containers;
* `MessageExportAnalyser.count_per_period` (lines 231-289) is
  `countPerPeriod`; its `while` loop filling missing dates is `fillMissing`,
  written with an explicit iteration bound that the lemmas below show is
  never reached for chronologically ordered keys.

Python `str` values in the source are ASCII byte strings; they are modelled
by Lean `String` with character-list primitives (`sliceTo`, `sliceFrom`,
`pyStrip`, `splitFirstColon`) that agree with Python slicing, `strip` and
`split(":", 1)` on such strings.
-/

namespace KakaoSpec

/-! ## Calendar model (Python datetime / dateutil arithmetic) -/

/-- Proleptic Gregorian leap-year test, as in Python's `calendar.isleap` /
`datetime`. -/
def isLeap (y : Nat) : Bool :=
  (y % 4 == 0 && y % 100 != 0) || y % 400 == 0

/-- Length of month `m` given the leap flag.  Months outside `1..12` do not
occur for validated dates; the default arm returns 31. -/
def monthLength (leap : Bool) (m : Nat) : Nat :=
  if m = 2 then (if leap then 29 else 28)
  else if m = 4 ∨ m = 6 ∨ m = 9 ∨ m = 11 then 30
  else 31

/-- Number of days in month `m` of year `y`. -/
def daysInMonth (y m : Nat) : Nat := monthLength (isLeap y) m

/-- Calendar date as stored by Python's `datetime.date`. -/
structure Date where
  year : Nat
  month : Nat
  day : Nat
deriving DecidableEq, Inhabited, Repr

/-- The field ranges enforced by the `datetime.date` constructor: every date
object representable in the Python program satisfies this. -/
def Date.Valid (d : Date) : Prop :=
  1 ≤ d.year ∧ 1 ≤ d.month ∧ d.month ≤ 12 ∧ 1 ≤ d.day ∧ d.day ≤ daysInMonth d.year d.month

instance (d : Date) : Decidable d.Valid := by
  unfold Date.Valid; infer_instance

/-- Days in year `y` strictly before month `m` (so `daysBeforeMonth y 1 = 0`). -/
def daysBeforeMonth (y : Nat) : Nat → Nat
  | 0 => 0
  | 1 => 0
  | m + 1 => daysBeforeMonth y m + daysInMonth y m

/-- Days before January 1st of year `y` counted from the proleptic-Gregorian
epoch, i.e. Python's `date(y, 1, 1).toordinal() - 1`.  The grouping of the
subtraction is safe in `Nat` because `n / 4 ≥ n / 100`. -/
def daysBeforeYear (y : Nat) : Nat :=
  365 * (y - 1) + ((y - 1) / 4 - (y - 1) / 100) + (y - 1) / 400

/-- Python's `date.toordinal()`: day 1 is 0001-01-01. -/
def toDays (d : Date) : Nat :=
  daysBeforeYear d.year + daysBeforeMonth d.year d.month + d.day

/-- Python's `date.isoweekday()`: Monday = 1 .. Sunday = 7.  Ordinal day 1
(0001-01-01) is a Monday. -/
def isoweekday (d : Date) : Nat := (toDays d + 6) % 7 + 1

/-- Successor date (what `d + timedelta(days=1)` produces). -/
def nextDay (d : Date) : Date :=
  if d.day < daysInMonth d.year d.month then { d with day := d.day + 1 }
  else if d.month < 12 then { year := d.year, month := d.month + 1, day := 1 }
  else { year := d.year + 1, month := 1, day := 1 }

/-- Predecessor date (what `d - timedelta(days=1)` produces, for dates after
the epoch). -/
def prevDay (d : Date) : Date :=
  if 1 < d.day then { d with day := d.day - 1 }
  else if 1 < d.month then
    { year := d.year, month := d.month - 1, day := daysInMonth d.year (d.month - 1) }
  else { year := d.year - 1, month := 12, day := 31 }

/-- Python's `d + timedelta(days=n)`: shift the chronological position by `n`
days. -/
def addDays (d : Date) (n : Int) : Date :=
  if 0 ≤ n then nextDay^[n.toNat] d else prevDay^[(-n).toNat] d

/-- `dateutil.relativedelta(months=1)` added to a date: bump the month (with
year carry) and clamp the day to the target month's length. -/
def addMonth (d : Date) : Date :=
  let y := if d.month = 12 then d.year + 1 else d.year
  let m := if d.month = 12 then 1 else d.month + 1
  { year := y, month := m, day := min d.day (daysInMonth y m) }

/-- Python's `datetime.datetime` restricted to second precision; all
timestamps produced by parsing the export grammar have microsecond 0, so the
microsecond field is omitted. -/
structure DateTime where
  date : Date
  hour : Nat
  minute : Nat
  second : Nat
deriving DecidableEq, Inhabited, Repr

/-- Constructor-enforced field ranges of `datetime.datetime`. -/
def DateTime.Valid (v : DateTime) : Prop :=
  v.date.Valid ∧ v.hour < 24 ∧ v.minute < 60 ∧ v.second < 60

instance (v : DateTime) : Decidable v.Valid := by
  unfold DateTime.Valid; infer_instance

/-- Seconds since the epoch; `(a - b).total_seconds()` on two such datetimes
is `dtSecs a - dtSecs b` as an integer. -/
def dtSecs (v : DateTime) : Nat :=
  toDays v.date * 86400 + v.hour * 3600 + v.minute * 60 + v.second

/-- `v + timedelta(hours=1)` on a datetime. -/
def addHour (v : DateTime) : DateTime :=
  if v.hour + 1 < 24 then { v with hour := v.hour + 1 }
  else { date := nextDay v.date, hour := 0, minute := v.minute, second := v.second }

/-! ## String primitives (Python byte-string operations on ASCII data) -/

/-- Characters removed by Python's `str.strip()`. -/
def isPySpace (c : Char) : Bool :=
  c == ' ' || c == '\t' || c == '\n' || c == '\x0d' || c == '\x0b' || c == '\x0c'

/-- Python `s.strip()`. -/
def pyStrip (s : String) : String :=
  String.mk (((s.toList.dropWhile isPySpace).reverse.dropWhile isPySpace).reverse)

/-- Python `s[0:c]` (slicing past the end yields the whole string). -/
def sliceTo (s : String) (c : Nat) : String := String.mk (s.toList.take c)

/-- Python `s[i:]`. -/
def sliceFrom (s : String) (i : Nat) : String := String.mk (s.toList.drop i)

/-- Python `s.split(":", 1)` followed by unpacking into two variables:
`none` models the `ValueError` raised when the string has no colon. -/
def splitFirstColon (s : String) : Option (String × String) :=
  let cs := s.toList
  if cs.contains ':' then
    some (String.mk (cs.takeWhile (fun c => c != ':')),
          String.mk ((cs.dropWhile (fun c => c != ':')).drop 1))
  else none

/-- Word characters of the Python 2 regex `\w` on byte strings. -/
def isWordChar (c : Char) : Bool := c.isAlphanum || c == '_'

/-- `len(re.findall(r'\b\w+\b', s))`: the number of maximal runs of word
characters (Message.count_words, line 52). -/
def countWords (s : String) : Nat :=
  (s.toList.foldl
    (fun acc c =>
      if isWordChar c then (if acc.2 then acc else (acc.1 + 1, true))
      else (acc.1, false))
    ((0, false) : Nat × Bool)).1

/-! ## Model of dateutil.parser.parse -/

/-- Read exactly `k` leading digits, returning their value and the rest. -/
def takeDigits : Nat → Nat → List Char → Option (Nat × List Char)
  | 0, acc, cs => some (acc, cs)
  | k + 1, acc, c :: cs =>
    if c.isDigit then takeDigits k (acc * 10 + (c.toNat - 48)) cs else none
  | _ + 1, _, [] => none

/-- Parse `HH:MM` or `HH:MM:SS` at the end of the token stream. -/
def parseClock (cs : List Char) : Option (Nat × Nat × Nat) :=
  match takeDigits 2 0 cs with
  | some (h, ':' :: cs1) =>
    match takeDigits 2 0 cs1 with
    | some (mi, []) => some (h, mi, 0)
    | some (mi, ':' :: cs2) =>
      match takeDigits 2 0 cs2 with
      | some (s, []) => some (h, mi, s)
      | _ => none
    | _ => none
  | _ => none

/-- Model of the external `dateutil.parser.parse`, restricted to the
zero-padded export grammar: optional surrounding whitespace, then
`YYYY-MM-DD`, optionally followed by a space and `HH:MM` or `HH:MM:SS`.
Out-of-range fields and any other shape raise `ValueError` (here: `none`).
A date with no time component defaults to midnight, as the real parser
does. -/
def dateutilParse (s : String) : Option DateTime :=
  let cs := (pyStrip s).toList
  match takeDigits 4 0 cs with
  | some (y, '-' :: cs1) =>
    match takeDigits 2 0 cs1 with
    | some (mo, '-' :: cs2) =>
      match takeDigits 2 0 cs2 with
      | some (dy, rest) =>
        let date : Date := { year := y, month := mo, day := dy }
        if date.Valid then
          match rest with
          | [] => some { date := date, hour := 0, minute := 0, second := 0 }
          | ' ' :: cs3 =>
            match parseClock cs3 with
            | some (h, mi, sec) =>
              if h < 24 ∧ mi < 60 ∧ sec < 60 then
                some { date := date, hour := h, minute := mi, second := sec }
              else none
            | none => none
          | _ => none
        else none
      | _ => none
    | _ => none
  | _ => none

/-! ## Line classifier (parse_line, lines 161-198) -/

/-- Status unchanged from last line; usually a continued message (line 31). -/
def LINE_TYPE_UNCHANGED : Nat := 0

/-- Line with a single date: a new-day divider (line 32). -/
def LINE_TYPE_DATE : Nat := 1

/-- Line with datetime, sender and message (line 33). -/
def LINE_TYPE_MESSAGE : Nat := 2

/-- The candidate slice lengths `range(40, 10, -1)` tried at line 174. -/
def sliceLengths : List Nat := (List.range 30).map (fun i => 40 - i)

/-- The `for c in range(40,10,-1): try: dateutil.parser.parse(line[0:c])`
loop (lines 174-180): the first (longest) slice length whose text parses,
with the parsed datetime. -/
def findDatePfx (line : String) : Option (Nat × DateTime) :=
  sliceLengths.findSome? (fun c => (dateutilParse (sliceTo line c)).map (fun d => (c, d)))

/-- The `line.split(":", 1)` step with its `ValueError` fallback
(lines 189-193): on success both parts are stripped, otherwise the sender
stays empty and the text is the whole (remaining) line. -/
def colonSplitOf (s : String) : String × String :=
  match splitFirstColon s with
  | some (a, b) => (pyStrip a, pyStrip b)
  | none => ("", s)

/-- `MessageExportAnalyser.parse_line` (lines 161-198).  Returns the tuple
`(line type, datetime, sender name, message text)`.  Note two quirks taken
verbatim from the source: the remainder is `line[(c-1):]`, keeping the last
character of the matched datetime slice (line 177), and a line whose split
sender is empty is reclassified `LINE_TYPE_UNCHANGED` even when a datetime
was found (lines 195-196). -/
def parseLine (line : String) : Nat × Option DateTime × String × String :=
  match findDatePfx line with
  | some (c, d) =>
    let rest := sliceFrom line (c - 1)
    let t := if d.hour = 0 ∧ d.minute = 0 ∧ d.second = 0 then LINE_TYPE_DATE
             else LINE_TYPE_MESSAGE
    let st := colonSplitOf rest
    let t := if st.1 = "" ∨ st.1 = " " then LINE_TYPE_UNCHANGED else t
    (t, some d, st.1, st.2)
  | none =>
    let st := colonSplitOf line
    (LINE_TYPE_UNCHANGED, none, st.1, st.2)

/-! ## Timeline builder (Message, Sender, parse_file) -/

/-- `Message` (lines 35-55).  Sender objects are interned per name in the
analyser's dict, so the `sender` reference is represented by the sender's
name; `prev` is the back-reference, as an index into the message list. -/
structure Message where
  dt : DateTime
  sender : String
  text : String
  response_time : Int
  prev : Option Nat
deriving DecidableEq, Inhabited, Repr

/-- `Sender` (lines 57-69): the two `Counter`s flattened into fields, all
starting at 0 as the class-level defaults do. -/
structure Sender where
  name : String
  countMessages : Nat := 0
  countWords : Nat := 0
  responseTimeTime : Int := 0
  responseTimeCount : Nat := 0
deriving DecidableEq, Inhabited, Repr

/-- The containers declared at class level on `MessageExportAnalyser`
(lines 72-73).  They are mutated in place and never rebound in the parse
path, so in one Python process every instance shares them; `analyserRun`
below therefore threads this state across analyser constructions. -/
structure AnalyserState where
  messages : List Message := []
  senders : List (String × Sender) := []
deriving DecidableEq, Inhabited, Repr

/-- Dictionary lookup `self.senders[name]` (insertion-ordered association
list). -/
def lookupSender (senders : List (String × Sender)) (name : String) : Option Sender :=
  (senders.find? (fun p => p.1 == name)).map (fun p => p.2)

/-- `last_message.add_line(text)` (line 48): append a newline-joined line to
the text of the most recently constructed message. -/
def updateLastText (msgs : List Message) (extra : String) : List Message :=
  match msgs.getLast? with
  | some m => msgs.dropLast ++ [{ m with text := m.text ++ "\n" ++ extra }]
  | none => msgs

/-- One iteration of the line loop of `parse_file` (lines 134-156).  The
boolean tracks whether `last_message` is set; when it is, `last_message` is
the last element of the message list (continuations mutate that element in
place and appends go to the end). -/
def processLine (st : AnalyserState) (hasLast : Bool) (raw : String) :
    AnalyserState × Bool :=
  let line := pyStrip raw
  if line = "" then (st, hasLast)
  else
    let r := parseLine line
    let t := r.1
    let dtOpt := r.2.1
    let senderName := r.2.2.1
    let text := r.2.2.2
    if t = LINE_TYPE_UNCHANGED ∧ hasLast then
      ({ st with messages := updateLastText st.messages text }, hasLast)
    else if t = LINE_TYPE_MESSAGE then
      let senders :=
        if (lookupSender st.senders senderName).isSome then st.senders
        else st.senders ++ [(senderName, { name := senderName })]
      -- `t = LINE_TYPE_MESSAGE` forces a parsed datetime (lemma
      -- `parseLine_message_dt` below); the default is never used.
      let dt := dtOpt.getD default
      let rt : Int :=
        match st.messages.getLast?, hasLast with
        | some lm, true =>
          if lm.sender ≠ senderName then (dtSecs dt : Int) - (dtSecs lm.dt : Int) else 0
        | _, _ => 0
      let m : Message :=
        { dt := dt, sender := senderName, text := text, response_time := rt,
          prev := if hasLast then some (st.messages.length - 1) else none }
      ({ messages := st.messages ++ [m], senders := senders }, true)
    else (st, hasLast)

/-- The `for message in self.messages: message.sender.count_message(message)`
pass at lines 158-159, one message at a time: `count_message` (lines 68-69)
adds `Counter(messages=1, words=message.count_words())` to the sender object
referenced by the message. -/
def countMessageFold (senders : List (String × Sender)) (m : Message) :
    List (String × Sender) :=
  senders.map (fun p =>
    if p.1 = m.sender then
      (p.1, { p.2 with
                countMessages := p.2.countMessages + 1,
                countWords := p.2.countWords + countWords m.text })
    else p)

/-- `MessageExportAnalyser.parse_file` (lines 122-159) on one file's lines:
the per-line loop starting with `last_message = None`, then the counting
pass over the whole (cumulative) message list. -/
def parseFile (st : AnalyserState) (lines : List String) : AnalyserState :=
  let st1 := (lines.foldl (fun acc l => processLine acc.1 acc.2 l)
    ((st, false) : AnalyserState × Bool)).1
  { st1 with senders := st1.messages.foldl countMessageFold st1.senders }

/-- The non-cache path of `__init__` (lines 97-112): parse every discovered
file in order.  The state argument is the class-level container pair, which a
freshly constructed analyser keeps using as-is. -/
def analyserRun (cls : AnalyserState) (files : List (List String)) : AnalyserState :=
  files.foldl parseFile cls

/-! ## Period aggregation (count_per_period, lines 231-289) -/

/-- A bucket key: a datetime (period `'hour'`) or a date (other periods),
matching the two types the local variable `date` takes. -/
inductive PKey where
  | dt (v : DateTime)
  | d (v : Date)
deriving DecidableEq, Inhabited, Repr

/-- Chronological index of a key: seconds for datetimes, ordinal days for
dates.  Python's `<` on two dates or two datetimes is chronological order,
which this index realises; keys of mixed kind are never compared (Python
would raise `TypeError`). -/
def keyIdx : PKey → Int
  | .dt v => (dtSecs v : Int)
  | .d v => (toDays v : Int)

/-- The comparison `last_date + td < date` operates on homogeneous keys;
modelled through the chronological index. -/
def keyLtB (a b : PKey) : Bool := keyIdx a < keyIdx b

/-- The per-message bucket key computation (lines 239-253). -/
def periodOf (period : String) (v : DateTime) : PKey :=
  if period = "hour" then .dt { date := v.date, hour := v.hour, minute := 0, second := 0 }
  else
    let d := v.date
    if period = "day" then .d d
    else if period = "week" then .d (addDays d (1 - (isoweekday d : Int)))
    else if period = "month" then .d (addDays d (1 - (d.day : Int)))
    else .d d

/-- The granularity step `td` (lines 269-277): one hour, one day, seven
days, or one calendar month.  For an unrecognised period the source leaves
`td = None` and the fill loop would raise `TypeError`; that case is
unreachable in the theorems below and the key is returned unchanged. -/
def periodStep (period : String) (k : PKey) : PKey :=
  if period = "hour" then (match k with | .dt v => .dt (addHour v) | .d v => .d v)
  else if period = "day" then (match k with | .d v => .d (nextDay v) | .dt v => .dt v)
  else if period = "week" then (match k with | .d v => .d (addDays v 7) | .dt v => .dt v)
  else if period = "month" then (match k with | .d v => .d (addMonth v) | .dt v => .dt v)
  else k

/-- `cnt` (lines 257-261): 1 for `'messages'`, the word count for
`'words'`.  Any other counter name raises `NameError` in the source;
unreachable below. -/
def metricCount (counter : String) (m : Message) : Nat :=
  if counter = "messages" then 1
  else if counter = "words" then countWords m.text
  else 0

/-- The accumulation state of the first loop: the first-seen-ordered list
`dates` and the `Counter` `counts` (a finitely supported function with
default 0, exactly the `Counter` lookup semantics). -/
structure AggAcc where
  dates : List PKey := []
  counts : PKey → Nat := fun _ => 0

/-- One iteration of the counting loop (lines 239-263). -/
def accumStep (counter period : String) (acc : AggAcc) (m : Message) : AggAcc :=
  let date := periodOf period m.dt
  let dates := if date ∈ acc.dates then acc.dates else acc.dates ++ [date]
  let cnt := metricCount counter m
  { dates := dates,
    counts := fun k => if k = date then acc.counts k + cnt else acc.counts k }

/-- The `while (last_date+td) < date` fill loop (lines 282-285), producing
the synthesized `(fill_date, 0)` entries strictly between `last` and
`target`.  The first argument bounds the number of iterations; call sites
pass the chronological gap, which the lemmas below show always suffices for
grid-aligned keys. -/
def fillMissing (period : String) : Nat → PKey → PKey → List (PKey × Nat)
  | 0, _, _ => []
  | fuel + 1, last, target =>
    let f := periodStep period last
    if keyLtB f target then (f, 0) :: fillMissing period fuel f target
    else []

/-- The output loop `for date in dates` (lines 279-287). -/
def buildOut (period : String) (counts : PKey → Nat) :
    List PKey → Option PKey → List (PKey × Nat)
  | [], _ => []
  | date :: rest, lastOpt =>
    (match lastOpt with
     | some l => fillMissing period (keyIdx date - keyIdx l).toNat l date
     | none => []) ++
    (date, counts date) :: buildOut period counts rest (some date)

/-- `MessageExportAnalyser.count_per_period` (lines 231-289). -/
def countPerPeriod (st : AnalyserState) (counter period : String) :
    List (PKey × Nat) :=
  let acc := st.messages.foldl (accumStep counter period) {}
  buildOut period acc.counts acc.dates none

/-- State-passing form of the method: its only interaction with `self` is
reading `self.messages` (line 239); it writes no attribute, so the state
comes back unchanged. -/
def countPerPeriodS (st : AnalyserState) (counter period : String) :
    AnalyserState × List (PKey × Nat) :=
  (st, countPerPeriod st counter period)

/-- The expected shape of a gap-free series: one bucket per step. -/
def stepGrid (period : String) (k : PKey) (n : Nat) : List PKey :=
  (List.range n).map (fun i => (periodStep period)^[i] k)

/-- Bucket keys of a message list under a period. -/
def messageKeys (period : String) (msgs : List Message) : List PKey :=
  msgs.map (fun m => periodOf period m.dt)

/-- Non-decreasing timestamps along the message list. -/
def ChronOrder : List Message → Prop
  | a :: b :: rest => dtSecs a.dt ≤ dtSecs b.dt ∧ ChronOrder (b :: rest)
  | _ => True

instance chronOrderDec : (l : List Message) → Decidable (ChronOrder l)
  | [] => isTrue trivial
  | [_] => isTrue trivial
  | _ :: b :: rest =>
    haveI := chronOrderDec (b :: rest)
    inferInstanceAs (Decidable (_ ∧ _))

/-- The components of a message that determine the response-time law:
sender identity, timestamp, recorded response time.  Continuation lines
extend only the text, leaving this view unchanged. -/
def msgView (m : Message) : String × Nat × Int :=
  (m.sender, dtSecs m.dt, m.response_time)

/-- Adjacent-pair response-time law actually implemented by `parse_file`
(lines 147-151) for a single-file run: a message following one by the same
sender records response time 0, otherwise the wall-clock delta from the
previous message. -/
def RespOK (msgs : List Message) : Prop :=
  ∀ i, ∀ a b : Message, msgs[i]? = some a → msgs[i + 1]? = some b →
    b.response_time =
      (if b.sender = a.sender then 0
       else (dtSecs b.dt : Int) - (dtSecs a.dt : Int))

/-- Keys produced by `'hour'` bucketing: valid datetimes aligned to the
start of an hour. -/
def HourShape (k : PKey) : Prop :=
  ∃ v : DateTime, k = PKey.dt v ∧ v.Valid ∧ v.minute = 0 ∧ v.second = 0

/-- Keys produced by `'day'` bucketing: valid calendar dates. -/
def DayShape (k : PKey) : Prop :=
  ∃ v : Date, k = PKey.d v ∧ v.Valid

/-- Keys produced by `'week'` bucketing: valid Mondays. -/
def WeekShape (k : PKey) : Prop :=
  ∃ v : Date, k = PKey.d v ∧ v.Valid ∧ isoweekday v = 1

/-- Keys produced by `'month'` bucketing: valid first-of-month dates. -/
def MonthShape (k : PKey) : Prop :=
  ∃ v : Date, k = PKey.d v ∧ v.Valid ∧ v.day = 1

/-- Strict chronological increase along a key list. -/
def ChainLtKeys : List PKey → Prop
  | a :: b :: rest => keyIdx a < keyIdx b ∧ ChainLtKeys (b :: rest)
  | _ => True

/-- The facts about one granularity that drive the gap-filling analysis:
bucketing lands on shaped keys, the step preserves shape and strictly
advances the chronological index, bucketing is monotone in time, shaped
keys are determined by their index, and any two shaped keys are joined by
iterating the step. -/
structure PeriodFacts (period : String) (Shape : PKey → Prop) : Prop where
  shape_key : ∀ v : DateTime, v.Valid → Shape (periodOf period v)
  shape_step : ∀ k, Shape k → Shape (periodStep period k)
  idx_step : ∀ k, Shape k → keyIdx k < keyIdx (periodStep period k)
  key_mono : ∀ a b : DateTime, a.Valid → b.Valid → dtSecs a ≤ dtSecs b →
    keyIdx (periodOf period a) ≤ keyIdx (periodOf period b)
  idx_inj : ∀ k k', Shape k → Shape k' → keyIdx k = keyIdx k' → k = k'
  connect : ∀ k k', Shape k → Shape k' → keyIdx k < keyIdx k' →
    ∃ m, 0 < m ∧ k' = (periodStep period)^[m] k

/-! ## Structure of parse_line -/

/-- When no slice parses as a datetime, the classifier degrades to the
continuation type with no timestamp, but the line is still colon-split. -/
theorem parseLine_none (line : String) (h : findDatePfx line = none) :
    parseLine line = (LINE_TYPE_UNCHANGED, none, colonSplitOf line) := by
  simp [parseLine, h]

/-- When a slice parses, the sender/text components are the colon split of
the remainder `line[(c-1):]`, independently of the final type. -/
theorem parseLine_split (line : String) (c : Nat) (d : DateTime)
    (h : findDatePfx line = some (c, d)) :
    (parseLine line).2.2 = colonSplitOf (sliceFrom line (c - 1)) := by
  simp only [parseLine, h]

/-- When a slice parses, the returned timestamp is exactly the parsed one. -/
theorem parseLine_dt (line : String) (c : Nat) (d : DateTime)
    (h : findDatePfx line = some (c, d)) :
    (parseLine line).2.1 = some d := by
  simp only [parseLine, h]

/-- The returned line type is `LINE_TYPE_MESSAGE` only when a datetime was
parsed, so the `dt` component cannot be `None` in the message branch of
`parse_file`. -/
theorem parseLine_message_dt (line : String)
    (h : (parseLine line).1 = LINE_TYPE_MESSAGE) :
    ∃ d, (parseLine line).2.1 = some d := by
  unfold parseLine at *
  cases hf : findDatePfx line with
  | none => simp [hf] at h ⊢; simp [LINE_TYPE_UNCHANGED, LINE_TYPE_MESSAGE] at h
  | some cd => simp [hf]

/-- The classification the code actually implements for the date type: a
line gets `LINE_TYPE_DATE` exactly when a slice parses to a zero
time-of-day and the colon split of the remainder yields a non-empty
sender (lines 183-187 set the type, lines 195-196 overwrite it). -/
theorem parseLine_date_iff (line : String) :
    (parseLine line).1 = LINE_TYPE_DATE ↔
      ∃ c d, findDatePfx line = some (c, d) ∧
        d.hour = 0 ∧ d.minute = 0 ∧ d.second = 0 ∧
        ¬((colonSplitOf (sliceFrom line (c - 1))).1 = "" ∨
          (colonSplitOf (sliceFrom line (c - 1))).1 = " ") := by
  constructor
  · intro h
    cases hf : findDatePfx line with
    | none =>
      rw [parseLine_none line hf] at h
      simp [LINE_TYPE_UNCHANGED, LINE_TYPE_DATE] at h
    | some cd =>
      obtain ⟨c, d⟩ := cd
      refine ⟨c, d, rfl, ?_⟩
      simp only [parseLine, hf] at h
      by_cases hs : (colonSplitOf (sliceFrom line (c - 1))).1 = "" ∨
          (colonSplitOf (sliceFrom line (c - 1))).1 = " "
      · rw [if_pos hs] at h
        simp [LINE_TYPE_UNCHANGED, LINE_TYPE_DATE] at h
      · rw [if_neg hs] at h
        by_cases hm : d.hour = 0 ∧ d.minute = 0 ∧ d.second = 0
        · exact ⟨hm.1, hm.2.1, hm.2.2, hs⟩
        · rw [if_neg hm] at h
          simp [LINE_TYPE_MESSAGE, LINE_TYPE_DATE] at h
  · rintro ⟨c, d, hf, h1, h2, h3, hns⟩
    simp only [parseLine, hf]
    rw [if_neg hns, if_pos ⟨h1, h2, h3⟩]

/-! ## Claim C4: date-divider classification -/

/-- C4 counterexample: for the line `"2024-01-01 00:00:00"` the longest
slice (the whole line) parses to a zero time-of-day, i.e. the claim's
condition holds, yet the classifier returns `LINE_TYPE_UNCHANGED`
(continuation), not `LINE_TYPE_DATE`: the empty remainder has an empty
sender, so lines 195-196 overwrite the type. -/
theorem C4_cex :
    findDatePfx "2024-01-01 00:00:00" =
      some (40, { date := { year := 2024, month := 1, day := 1 },
                  hour := 0, minute := 0, second := 0 }) ∧
    sliceTo "2024-01-01 00:00:00" 40 = "2024-01-01 00:00:00" ∧
    (parseLine "2024-01-01 00:00:00").1 = LINE_TYPE_UNCHANGED ∧
    (parseLine "2024-01-01 00:00:00").1 ≠ LINE_TYPE_DATE := by decide

/-- C4 amended: a line is classified `DateDivider` exactly when a leading
slice parses to a zero time-of-day timestamp AND the remainder (which keeps
the last character of the matched slice) splits to a non-empty sender; a
bare date-divider line instead becomes a `Continuation` with empty body.
Ingesting the single line `"2024-01-01 00:00:00"` still produces no Message
and leaves the analyser state untouched; after a message, the divider only
appends an empty continuation line to that message's text, leaving every
sender aggregate unchanged. -/
theorem C4_amended :
    (∀ line, (parseLine line).1 = LINE_TYPE_DATE ↔
      ∃ c d, findDatePfx line = some (c, d) ∧
        d.hour = 0 ∧ d.minute = 0 ∧ d.second = 0 ∧
        ¬((colonSplitOf (sliceFrom line (c - 1))).1 = "" ∨
          (colonSplitOf (sliceFrom line (c - 1))).1 = " ")) ∧
    parseFile {} ["2024-01-01 00:00:00"] = {} ∧
    (parseFile {} ["2024-01-01 10:00:00 Alice: hi", "2024-01-01 00:00:00"]).messages.map
        Message.text = ["hi\n"] ∧
    (parseFile {} ["2024-01-01 10:00:00 Alice: hi", "2024-01-01 00:00:00"]).senders =
      (parseFile {} ["2024-01-01 10:00:00 Alice: hi"]).senders :=
  ⟨parseLine_date_iff, by decide, by decide, by decide⟩

/-! ## Claim C5: the split of the post-timestamp remainder -/

/-- C5 counterexample: in `"2024-01-01 10:05bob: hi"` the matched slice is
`"2024-01-01 10:05"` (length 16, non-zero time-of-day); the remainder after
the matched slice is `"bob: hi"`, whose split would be `("bob", "hi")`, but
the classifier splits `line[15:]` and returns sender `"5bob"`: one
character of the matched slice leaks into the sender. -/
theorem C5_cex :
    findDatePfx "2024-01-01 10:05bob: hi" =
      some (16, { date := { year := 2024, month := 1, day := 1 },
                  hour := 10, minute := 5, second := 0 }) ∧
    sliceFrom "2024-01-01 10:05bob: hi" 16 = "bob: hi" ∧
    colonSplitOf "bob: hi" = ("bob", "hi") ∧
    (parseLine "2024-01-01 10:05bob: hi").2.2 = ("5bob", "hi") ∧
    ("5bob", "hi") ≠ ("bob", "hi") := by decide

/-- C5 amended: when a leading slice of length `c` parses with non-zero
time-of-day, the classifier splits `line[(c-1):]` — the remainder starting
at the LAST character of the matched slice — on the first colon, trimming
both parts; with no colon the whole remainder becomes the body with an
empty sender. -/
theorem C5_amended (line : String) (c : Nat) (d : DateTime)
    (hf : findDatePfx line = some (c, d))
    (hm : ¬(d.hour = 0 ∧ d.minute = 0 ∧ d.second = 0)) :
    (parseLine line).2.2 =
      (match splitFirstColon (sliceFrom line (c - 1)) with
       | some (a, b) => (pyStrip a, pyStrip b)
       | none => ("", sliceFrom line (c - 1))) := by
  rw [parseLine_split line c d hf]; rfl

/-- C5 witness: the amended statement evaluated on a well-formed message
line. -/
theorem C5_amended_w :
    findDatePfx "2024-01-01 10:00:00 Alice: hi" =
      some (20, { date := { year := 2024, month := 1, day := 1 },
                  hour := 10, minute := 0, second := 0 }) ∧
    ¬((10 : Nat) = 0 ∧ (0 : Nat) = 0 ∧ (0 : Nat) = 0) ∧
    (parseLine "2024-01-01 10:00:00 Alice: hi").2.2 =
      (match splitFirstColon (sliceFrom "2024-01-01 10:00:00 Alice: hi" (20 - 1)) with
       | some (a, b) => (pyStrip a, pyStrip b)
       | none => ("", sliceFrom "2024-01-01 10:00:00 Alice: hi" (20 - 1))) :=
  ⟨by decide, by decide,
   C5_amended "2024-01-01 10:00:00 Alice: hi" 20
     { date := { year := 2024, month := 1, day := 1 },
       hour := 10, minute := 0, second := 0 }
     (by decide) (by decide)⟩

/-! ## Claim C9: degradation when no timestamp parses -/

/-- C9 counterexample: with no parsable timestamp the line `"alice: hi"` is
still split on the colon, returning sender `"alice"` and body `"hi"` — not
an empty sender with the full line as body as claimed. -/
theorem C9_cex :
    findDatePfx "alice: hi" = none ∧
    parseLine "alice: hi" = (LINE_TYPE_UNCHANGED, none, "alice", "hi") ∧
    ¬((LINE_TYPE_UNCHANGED, (none : Option DateTime), "alice", "hi") =
      (LINE_TYPE_UNCHANGED, (none : Option DateTime), "", "alice: hi")) := by decide

/-- C9 amended: classification is total, and when no slice parses it
returns `Continuation` with a null timestamp — but the line is still split
on its first colon (trimmed sender before, trimmed body after); the body is
the full line with an empty sender only when the line has no colon. -/
theorem C9_amended (line : String) (h : findDatePfx line = none) :
    (parseLine line).1 = LINE_TYPE_UNCHANGED ∧
    (parseLine line).2.1 = none ∧
    (parseLine line).2.2 =
      (match splitFirstColon line with
       | some (a, b) => (pyStrip a, pyStrip b)
       | none => ("", line)) := by
  rw [parseLine_none line h]
  exact ⟨rfl, rfl, rfl⟩

/-- C9 witness: the amended statement evaluated on a colon-free line. -/
theorem C9_amended_w :
    findDatePfx "hello world" = none ∧
    ((parseLine "hello world").1 = LINE_TYPE_UNCHANGED ∧
     (parseLine "hello world").2.1 = none ∧
     (parseLine "hello world").2.2 =
       (match splitFirstColon "hello world" with
        | some (a, b) => (pyStrip a, pyStrip b)
        | none => ("", "hello world"))) :=
  ⟨by decide, C9_amended "hello world" (by decide)⟩

/-! ## Claim C1 counterexample: the Sender response accumulator is dead -/

/-- C1 counterexample: after ingesting Alice at 10:00:00 and Bob at
10:05:00, Bob's Message carries response time 300 but Bob's Sender-level
response accumulator is still `Counter(time=0, count=0)` — nothing in the
code ever updates it. -/
theorem C1_cex :
    ((parseFile {} ["2024-01-01 10:00:00 Alice: hi",
                    "2024-01-01 10:05:00 Bob: hey"]).messages.map
        Message.response_time = [0, 300]) ∧
    ((lookupSender (parseFile {} ["2024-01-01 10:00:00 Alice: hi",
                    "2024-01-01 10:05:00 Bob: hey"]).senders "Bob").map
        Sender.responseTimeTime = some 0) ∧
    ((lookupSender (parseFile {} ["2024-01-01 10:00:00 Alice: hi",
                    "2024-01-01 10:05:00 Bob: hey"]).senders "Bob").map
        Sender.responseTimeCount = some 0) ∧
    ¬((lookupSender (parseFile {} ["2024-01-01 10:00:00 Alice: hi",
                    "2024-01-01 10:05:00 Bob: hey"]).senders "Bob").map
        Sender.responseTimeTime = some 300) := by decide

/-! ## Claim C2: message_count over multiple files -/

/-- C2 failing input: the counting pass at lines 158-159 runs at the end of
every `parse_file` call over the cumulative message list, so with two
files of one `alice` message each, `alice` references 2 messages but her
`message_count` is 3 (file 1's message is recounted). -/
theorem C2_bug :
    ((analyserRun {} [["2024-01-01 10:00:00 alice: hi"],
                      ["2024-01-01 11:00:00 alice: yo"]]).messages.filter
        (fun m => m.sender == "alice")).length = 2 ∧
    ((lookupSender (analyserRun {} [["2024-01-01 10:00:00 alice: hi"],
                      ["2024-01-01 11:00:00 alice: yo"]]).senders "alice").map
        Sender.countMessages = some 3) ∧
    ¬((3 : Nat) = 2) := by decide

/-- C2 holds for a single-file run: the same input merged into one file
yields `message_count = 2`, matching the 2 messages. -/
theorem C2_single_file_ok :
    ((parseFile {} ["2024-01-01 10:00:00 alice: hi",
                    "2024-01-01 11:00:00 alice: yo"]).messages.filter
        (fun m => m.sender == "alice")).length = 2 ∧
    ((lookupSender (parseFile {} ["2024-01-01 10:00:00 alice: hi",
                    "2024-01-01 11:00:00 alice: yo"]).senders "alice").map
        Sender.countMessages = some 2) := by decide

/-! ## Claim C3: class-level shared containers -/

/-- C3 failing input: `messages`/`senders` live on the class (lines 72-73)
and the parse path only mutates them in place, so a second analyser
constructed in the same process starts from the first analyser's
containers: after it parses a one-message file it observes 2 messages, and
the first run's message got recounted into `alice`'s aggregate. -/
theorem C3_bug :
    (analyserRun (analyserRun {} [["2024-01-01 10:00:00 alice: hi"]])
        [["2024-02-02 10:00:00 bob: yo"]]).messages.length = 2 ∧
    ((lookupSender (analyserRun (analyserRun {} [["2024-01-01 10:00:00 alice: hi"]])
        [["2024-02-02 10:00:00 bob: yo"]]).senders "alice").map
        Sender.countMessages = some 2) ∧
    ¬((2 : Nat) = 1) := by decide

/-! ## Claim C10: aggregation is read-only -/

/-- C10: `count_per_period` only reads `self.messages`; the analyser state
comes back unchanged, so a re-run on the resulting state produces the same
series. -/
theorem C10_frame (st : AnalyserState) (counter period : String)
    (hc : counter = "messages" ∨ counter = "words")
    (hp : period = "hour" ∨ period = "day" ∨ period = "week" ∨ period = "month") :
    (countPerPeriodS st counter period).1 = st ∧
    (countPerPeriodS (countPerPeriodS st counter period).1 counter period).2 =
      (countPerPeriodS st counter period).2 :=
  ⟨rfl, rfl⟩

/-- C10 witness: the frame property evaluated at a concrete state. -/
theorem C10_frame_w :
    (("messages" : String) = "messages" ∨ ("messages" : String) = "words") ∧
    (("day" : String) = "hour" ∨ ("day" : String) = "day" ∨
     ("day" : String) = "week" ∨ ("day" : String) = "month") ∧
    ((countPerPeriodS (parseFile {} ["2024-01-01 10:00:00 a: x"]) "messages" "day").1 =
        parseFile {} ["2024-01-01 10:00:00 a: x"] ∧
     (countPerPeriodS
        (countPerPeriodS (parseFile {} ["2024-01-01 10:00:00 a: x"]) "messages" "day").1
        "messages" "day").2 =
      (countPerPeriodS (parseFile {} ["2024-01-01 10:00:00 a: x"]) "messages" "day").2) :=
  ⟨Or.inl rfl, Or.inr (Or.inl rfl),
   C10_frame (parseFile {} ["2024-01-01 10:00:00 a: x"]) "messages" "day"
     (Or.inl rfl) (Or.inr (Or.inl rfl))⟩

/-! ## Claim C1: response-time attribution machinery -/

theorem updateLastText_cons (a b : Message) (t : List Message) (e : String) :
    updateLastText (a :: b :: t) e = a :: updateLastText (b :: t) e := by
  simp only [updateLastText, List.getLast?_cons_cons]
  cases h : (b :: t).getLast? with
  | none => simp at h
  | some m => simp

theorem updateLastText_view (msgs : List Message) (e : String) :
    ∀ i : Nat, ((updateLastText msgs e)[i]?).map msgView = (msgs[i]?).map msgView := by
  induction msgs with
  | nil => intro i; rfl
  | cons a t ih =>
    cases t with
    | nil =>
      intro i
      cases i with
      | zero => rfl
      | succ j => rfl
    | cons b t2 =>
      intro i
      rw [updateLastText_cons]
      cases i with
      | zero => simp
      | succ j =>
        rw [List.getElem?_cons_succ, List.getElem?_cons_succ]
        exact ih j

theorem updateLastText_ne_nil (msgs : List Message) (e : String) (h : msgs ≠ []) :
    updateLastText msgs e ≠ [] := by
  cases msgs with
  | nil => exact absurd rfl h
  | cons a t =>
    cases t with
    | nil => simp [updateLastText]
    | cons b t2 => rw [updateLastText_cons]; simp

theorem respOK_of_view (xs ys : List Message)
    (h : ∀ i : Nat, (xs[i]?).map msgView = (ys[i]?).map msgView)
    (hy : RespOK ys) : RespOK xs := by
  intro i a b ha hb
  have h1 := h i
  have h2 := h (i + 1)
  rw [ha] at h1
  rw [hb] at h2
  cases hy1 : ys[i]? with
  | none => rw [hy1] at h1; simp at h1
  | some a' =>
    cases hy2 : ys[i + 1]? with
    | none => rw [hy2] at h2; simp at h2
    | some b' =>
      rw [hy1] at h1
      rw [hy2] at h2
      have hv1 : msgView a = msgView a' := by simpa using h1
      have hv2 : msgView b = msgView b' := by simpa using h2
      obtain ⟨hs1, hd1, hr1⟩ : a.sender = a'.sender ∧ dtSecs a.dt = dtSecs a'.dt ∧
          a.response_time = a'.response_time := by
        simpa [msgView, Prod.ext_iff] using hv1
      obtain ⟨hs2, hd2, hr2⟩ : b.sender = b'.sender ∧ dtSecs b.dt = dtSecs b'.dt ∧
          b.response_time = b'.response_time := by
        simpa [msgView, Prod.ext_iff] using hv2
      rw [hr2, hs2, hd2, hs1, hd1]
      exact hy i a' b' hy1 hy2

theorem respOK_append (msgs : List Message) (m : Message) (hresp : RespOK msgs)
    (hm : ∀ last, msgs.getLast? = some last →
      m.response_time = if m.sender = last.sender then 0
        else (dtSecs m.dt : Int) - (dtSecs last.dt : Int)) :
    RespOK (msgs ++ [m]) := by
  intro i a b ha hb
  rcases lt_trichotomy (i + 1) msgs.length with hlt | heq | hgt
  · rw [List.getElem?_append, if_pos (by omega)] at ha
    rw [List.getElem?_append, if_pos hlt] at hb
    exact hresp i a b ha hb
  · rw [List.getElem?_append, if_pos (by omega : i < msgs.length)] at ha
    rw [List.getElem?_append, if_neg (by omega)] at hb
    have hz : i + 1 - msgs.length = 0 := by omega
    rw [hz] at hb
    have hb' : m = b := by simpa using hb
    subst hb'
    have hlast : msgs.getLast? = some a := by
      rw [List.getLast?_eq_getElem?]
      have hl : msgs.length - 1 = i := by omega
      rw [hl, ha]
    exact hm a hlast
  · have hnone : (msgs ++ [m])[i + 1]? = none := by
      apply List.getElem?_eq_none
      simp only [List.length_append, List.length_cons, List.length_nil]
      omega
    rw [hnone] at hb
    cases hb

theorem respOK_single (m : Message) : RespOK [m] := by
  intro i a b _ hb
  have : ([m] : List Message)[i + 1]? = none := by
    apply List.getElem?_eq_none
    simp
  rw [this] at hb
  cases hb

theorem respOK_nil : RespOK [] := by
  intro i a b ha _
  have : ([] : List Message)[i]? = none := by
    apply List.getElem?_eq_none
    simp
  rw [this] at ha
  cases ha

/-- The fresh-run invariant through one line of `parse_file`: once no
message exists iff `last_message` is unset, processing any line preserves
that, and preserves the response-time law. -/
theorem processLine_inv (st : AnalyserState) (hasLast : Bool) (raw : String)
    (h1 : hasLast = false → st.messages = [])
    (h2 : hasLast = true → st.messages ≠ [])
    (h3 : RespOK st.messages) :
    ((processLine st hasLast raw).2 = false → (processLine st hasLast raw).1.messages = []) ∧
    ((processLine st hasLast raw).2 = true → (processLine st hasLast raw).1.messages ≠ []) ∧
    RespOK (processLine st hasLast raw).1.messages := by
  unfold processLine
  by_cases hblank : pyStrip raw = ""
  · rw [if_pos hblank]
    exact ⟨h1, h2, h3⟩
  · rw [if_neg hblank]
    dsimp only
    by_cases hcont : (parseLine (pyStrip raw)).1 = LINE_TYPE_UNCHANGED ∧ hasLast = true
    · rw [if_pos hcont]
      refine ⟨?_, ?_, ?_⟩
      · intro hf
        simp [hcont.2] at hf
      · intro _
        exact updateLastText_ne_nil _ _ (h2 hcont.2)
      · exact respOK_of_view _ _ (updateLastText_view st.messages _) h3
    · rw [if_neg hcont]
      by_cases hmsg : (parseLine (pyStrip raw)).1 = LINE_TYPE_MESSAGE
      · rw [if_pos hmsg]
        refine ⟨?_, ?_, ?_⟩
        · intro hf
          simp at hf
        · intro _
          simp
        · refine respOK_append st.messages _ h3 ?_
          intro last hlast
          rw [hlast]
          cases hasLast with
          | false =>
            rw [h1 rfl] at hlast
            simp at hlast
          | true =>
            dsimp only
            by_cases hss : (parseLine (pyStrip raw)).2.2.1 = last.sender
            · rw [if_pos hss, if_neg (fun hne => hne hss.symm)]
            · rw [if_neg hss, if_pos (fun he => hss he.symm)]
      · rw [if_neg hmsg]
        exact ⟨h1, h2, h3⟩

/-- The invariant threaded through the per-line loop. -/
theorem foldl_processLine_inv (lines : List String) :
    ∀ (st : AnalyserState) (hasLast : Bool),
      (hasLast = false → st.messages = []) →
      (hasLast = true → st.messages ≠ []) →
      RespOK st.messages →
      RespOK ((lines.foldl (fun acc l => processLine acc.1 acc.2 l)
        (st, hasLast)).1).messages := by
  induction lines with
  | nil =>
    intro st hasLast _ _ h3
    exact h3
  | cons l rest ih =>
    intro st hasLast h1 h2 h3
    rw [List.foldl_cons]
    obtain ⟨g1, g2, g3⟩ := processLine_inv st hasLast l h1 h2 h3
    exact ih _ _ g1 g2 g3

/-- No step of the line loop ever touches a sender's response accumulator:
the only sender ever inserted is freshly constructed with the zero
counters. -/
theorem processLine_senders_zero (st : AnalyserState) (hasLast : Bool) (raw : String)
    (h : ∀ p ∈ st.senders, p.2.responseTimeTime = 0 ∧ p.2.responseTimeCount = 0) :
    ∀ p ∈ (processLine st hasLast raw).1.senders,
      p.2.responseTimeTime = 0 ∧ p.2.responseTimeCount = 0 := by
  unfold processLine
  by_cases hblank : pyStrip raw = ""
  · rw [if_pos hblank]; exact h
  · rw [if_neg hblank]
    dsimp only
    by_cases hcont : (parseLine (pyStrip raw)).1 = LINE_TYPE_UNCHANGED ∧ hasLast = true
    · rw [if_pos hcont]; exact h
    · rw [if_neg hcont]
      by_cases hmsg : (parseLine (pyStrip raw)).1 = LINE_TYPE_MESSAGE
      · rw [if_pos hmsg]
        dsimp only
        by_cases hlk : (lookupSender st.senders (parseLine (pyStrip raw)).2.2.1).isSome
        · rw [if_pos hlk]; exact h
        · rw [if_neg hlk]
          intro p hp
          rcases List.mem_append.mp hp with hin | hnew
          · exact h p hin
          · rw [List.mem_singleton] at hnew
            subst hnew
            exact ⟨rfl, rfl⟩
      · rw [if_neg hmsg]; exact h

theorem foldl_processLine_senders (lines : List String) :
    ∀ (st : AnalyserState) (hasLast : Bool),
      (∀ p ∈ st.senders, p.2.responseTimeTime = 0 ∧ p.2.responseTimeCount = 0) →
      ∀ p ∈ ((lines.foldl (fun acc l => processLine acc.1 acc.2 l)
          (st, hasLast)).1).senders,
        p.2.responseTimeTime = 0 ∧ p.2.responseTimeCount = 0 := by
  induction lines with
  | nil => intro st hasLast h; exact h
  | cons l rest ih =>
    intro st hasLast h
    rw [List.foldl_cons]
    exact ih _ _ (processLine_senders_zero st hasLast l h)

/-- The counting pass (lines 158-159) updates only the message and word
counters, never the response accumulator. -/
theorem countMessageFold_zero (senders : List (String × Sender)) (m : Message)
    (h : ∀ p ∈ senders, p.2.responseTimeTime = 0 ∧ p.2.responseTimeCount = 0) :
    ∀ p ∈ countMessageFold senders m,
      p.2.responseTimeTime = 0 ∧ p.2.responseTimeCount = 0 := by
  intro p hp
  unfold countMessageFold at hp
  rcases List.mem_map.mp hp with ⟨q, hq, he⟩
  by_cases h1 : q.1 = m.sender
  · rw [if_pos h1] at he
    rw [← he]
    exact h q hq
  · rw [if_neg h1] at he
    rw [← he]
    exact h q hq

theorem foldl_countMessage_zero (msgs : List Message) :
    ∀ senders : List (String × Sender),
      (∀ p ∈ senders, p.2.responseTimeTime = 0 ∧ p.2.responseTimeCount = 0) →
      ∀ p ∈ msgs.foldl countMessageFold senders,
        p.2.responseTimeTime = 0 ∧ p.2.responseTimeCount = 0 := by
  induction msgs with
  | nil => intro senders h; exact h
  | cons m rest ih =>
    intro senders h
    rw [List.foldl_cons]
    exact ih _ (countMessageFold_zero senders m h)

/-- C1 amended: in a single-file run, the response time of each message is
stored on the message itself — 0 when the previous message has the same
sender, else the wall-clock delta — while every sender's response-time
accumulator (`Sender.response_time = Counter(time=0, count=0)`, line 60)
remains at its initial zeros: no code path ever updates it. -/
theorem C1_amended (lines : List String) :
    (∀ p ∈ (parseFile {} lines).senders,
        p.2.responseTimeTime = 0 ∧ p.2.responseTimeCount = 0) ∧
    RespOK (parseFile {} lines).messages := by
  unfold parseFile
  dsimp only
  constructor
  · refine foldl_countMessage_zero _ _ ?_
    refine foldl_processLine_senders lines {} false ?_
    intro p hp
    cases hp
  · exact foldl_processLine_inv lines {} false (fun _ => rfl) (fun h => by cases h)
      respOK_nil

/-- C1 witness: the amended law evaluated on the Alice/Bob example — Bob's
message records 300 seconds while his sender accumulator stays zero. -/
theorem C1_amended_w :
    ((parseFile {} ["2024-01-01 10:00:00 Alice: hi",
        "2024-01-01 10:05:00 Bob: hey"]).messages[0]? =
      some ⟨⟨⟨2024, 1, 1⟩, 10, 0, 0⟩, "Alice", "hi", 0, none⟩) ∧
    ((parseFile {} ["2024-01-01 10:00:00 Alice: hi",
        "2024-01-01 10:05:00 Bob: hey"]).messages[0 + 1]? =
      some ⟨⟨⟨2024, 1, 1⟩, 10, 5, 0⟩, "Bob", "hey", 300, some 0⟩) ∧
    (Message.response_time ⟨⟨⟨2024, 1, 1⟩, 10, 5, 0⟩, "Bob", "hey", 300, some 0⟩ =
      if Message.sender ⟨⟨⟨2024, 1, 1⟩, 10, 5, 0⟩, "Bob", "hey", 300, some 0⟩ =
          Message.sender ⟨⟨⟨2024, 1, 1⟩, 10, 0, 0⟩, "Alice", "hi", 0, none⟩ then 0
      else (dtSecs (Message.dt ⟨⟨⟨2024, 1, 1⟩, 10, 5, 0⟩, "Bob", "hey", 300, some 0⟩) : Int) -
            (dtSecs (Message.dt ⟨⟨⟨2024, 1, 1⟩, 10, 0, 0⟩, "Alice", "hi", 0, none⟩) : Int)) :=
  ⟨by decide, by decide,
   (C1_amended ["2024-01-01 10:00:00 Alice: hi", "2024-01-01 10:05:00 Bob: hey"]).2
     0 ⟨⟨⟨2024, 1, 1⟩, 10, 0, 0⟩, "Alice", "hi", 0, none⟩
     ⟨⟨⟨2024, 1, 1⟩, 10, 5, 0⟩, "Bob", "hey", 300, some 0⟩
     (by decide) (by decide)⟩

/-! ## Calendar lemmas -/

theorem monthLength_pos (b : Bool) (m : Nat) : 1 ≤ monthLength b m := by
  unfold monthLength
  split_ifs <;> omega

theorem daysInMonth_pos (y m : Nat) : 1 ≤ daysInMonth y m :=
  monthLength_pos (isLeap y) m

theorem daysBeforeMonth_succ (y : Nat) : ∀ m : Nat, 1 ≤ m →
    daysBeforeMonth y (m + 1) = daysBeforeMonth y m + daysInMonth y m := by
  intro m h
  match m, h with
  | m + 1, _ => rfl

theorem daysBeforeMonth_le (y : Nat) {m m' : Nat} (h1 : 1 ≤ m) (h2 : m ≤ m') :
    daysBeforeMonth y m ≤ daysBeforeMonth y m' := by
  induction m', h2 using Nat.le_induction with
  | base => exact le_refl _
  | succ n hn ih =>
    rw [daysBeforeMonth_succ y n (le_trans h1 hn)]
    exact le_trans ih (Nat.le_add_right _ _)

theorem daysBeforeMonth_13 (y : Nat) :
    daysBeforeMonth y 13 = if isLeap y then 366 else 365 := by
  cases h : isLeap y <;>
    simp [daysBeforeMonth, daysInMonth, monthLength, h]

theorem daysInMonth_12 (y : Nat) : daysInMonth y 12 = 31 := by
  simp [daysInMonth, monthLength]

theorem daysInMonth_1 (y : Nat) : daysInMonth y 1 = 31 := by
  simp [daysInMonth, monthLength]

theorem daysBeforeYear_succ (y : Nat) (h : 1 ≤ y) :
    daysBeforeYear (y + 1) = daysBeforeYear y + (if isLeap y then 366 else 365) := by
  obtain ⟨n, rfl⟩ : ∃ n, y = n + 1 := ⟨y - 1, by omega⟩
  cases hl : isLeap (n + 1) with
  | true =>
    have hc : ((n + 1) % 4 = 0 ∧ (n + 1) % 100 ≠ 0) ∨ (n + 1) % 400 = 0 := by
      simpa [isLeap] using hl
    have hite : (if (true = true) then 366 else 365) = 366 := rfl
    rw [hite]
    unfold daysBeforeYear
    simp only [Nat.add_sub_cancel]
    rcases hc with ⟨h4, h100⟩ | h400 <;> omega
  | false =>
    have hc : ¬(((n + 1) % 4 = 0 ∧ (n + 1) % 100 ≠ 0) ∨ (n + 1) % 400 = 0) := by
      simpa [isLeap] using hl
    have hite : (if (false = true) then 366 else 365) = 365 := rfl
    rw [hite]
    unfold daysBeforeYear
    simp only [Nat.add_sub_cancel]
    push_neg at hc
    omega

theorem toDays_pos (d : Date) (hd : d.Valid) : 1 ≤ toDays d := by
  obtain ⟨-, -, -, h1, -⟩ := hd
  unfold toDays
  omega

theorem nextDay_toDays (d : Date) (hd : d.Valid) :
    (nextDay d).Valid ∧ toDays (nextDay d) = toDays d + 1 := by
  obtain ⟨hy, hm1, hm2, hd1, hd2⟩ := hd
  unfold nextDay
  by_cases h1 : d.day < daysInMonth d.year d.month
  · rw [if_pos h1]
    constructor
    · exact ⟨by dsimp only; omega, by dsimp only; omega, by dsimp only; omega,
        by dsimp only; omega, by dsimp only; omega⟩
    · unfold toDays
      dsimp only
      omega
  · rw [if_neg h1]
    by_cases h2 : d.month < 12
    · rw [if_pos h2]
      constructor
      · refine ⟨by dsimp only; omega, by dsimp only; omega, by dsimp only; omega,
          by dsimp only; omega, ?_⟩
        dsimp only
        exact daysInMonth_pos _ _
      · unfold toDays
        dsimp only
        rw [daysBeforeMonth_succ d.year d.month hm1]
        omega
    · rw [if_neg h2]
      have hm12 : d.month = 12 := by omega
      constructor
      · refine ⟨by dsimp only; omega, by dsimp only; omega, by dsimp only; omega,
          by dsimp only; omega, ?_⟩
        dsimp only
        rw [daysInMonth_1]
        omega
      · unfold toDays
        dsimp only
        rw [daysBeforeYear_succ d.year hy]
        have h13 : daysBeforeMonth d.year 13 =
            daysBeforeMonth d.year 12 + daysInMonth d.year 12 :=
          daysBeforeMonth_succ d.year 12 (by omega)
        have hv13 := daysBeforeMonth_13 d.year
        have h31 := daysInMonth_12 d.year
        have hb1 : daysBeforeMonth (d.year + 1) 1 = 0 := rfl
        rw [hm12] at hd2 h1
        rw [hm12]
        by_cases hl : isLeap d.year = true
        · rw [if_pos hl] at hv13 ⊢
          omega
        · rw [if_neg hl] at hv13 ⊢
          omega

theorem prevDay_toDays (d : Date) (hd : d.Valid) (h2 : 2 ≤ toDays d) :
    (prevDay d).Valid ∧ toDays (prevDay d) + 1 = toDays d := by
  obtain ⟨hy, hm1, hm2, hd1, hd2⟩ := hd
  unfold prevDay
  by_cases hc1 : 1 < d.day
  · rw [if_pos hc1]
    constructor
    · exact ⟨by dsimp only; omega, by dsimp only; omega, by dsimp only; omega,
        by dsimp only; omega, by dsimp only; omega⟩
    · unfold toDays
      dsimp only
      omega
  · rw [if_neg hc1]
    have hday : d.day = 1 := by omega
    by_cases hc2 : 1 < d.month
    · rw [if_pos hc2]
      constructor
      · refine ⟨by dsimp only; omega, by dsimp only; omega, by dsimp only; omega, ?_, ?_⟩
        · dsimp only
          exact daysInMonth_pos _ _
        · dsimp only
          exact le_refl _

      · unfold toDays
        dsimp only
        have hs : daysBeforeMonth d.year (d.month - 1 + 1) =
            daysBeforeMonth d.year (d.month - 1) + daysInMonth d.year (d.month - 1) :=
          daysBeforeMonth_succ d.year (d.month - 1) (by omega)
        have he : d.month - 1 + 1 = d.month := by omega
        rw [he] at hs
        omega
    · rw [if_neg hc2]
      have hmon : d.month = 1 := by omega
      have hT : toDays d = daysBeforeYear d.year + 1 := by
        unfold toDays
        rw [hmon, hday]
        rfl
      have hy2 : 2 ≤ d.year := by
        by_contra hlt
        have h1y : d.year = 1 := by omega
        rw [h1y] at hT
        simp [daysBeforeYear] at hT
        omega
      constructor
      · refine ⟨by dsimp only; omega, by dsimp only; omega, by dsimp only; omega,
          by dsimp only; omega, ?_⟩
        dsimp only
        rw [daysInMonth_12]
      · rw [hT]
        unfold toDays
        dsimp only
        have h13 : daysBeforeMonth (d.year - 1) 13 =
            daysBeforeMonth (d.year - 1) 12 + daysInMonth (d.year - 1) 12 :=
          daysBeforeMonth_succ (d.year - 1) 12 (by omega)
        have hv13 := daysBeforeMonth_13 (d.year - 1)
        have h31 := daysInMonth_12 (d.year - 1)
        have hsy : daysBeforeYear (d.year - 1 + 1) =
            daysBeforeYear (d.year - 1) + (if isLeap (d.year - 1) then 366 else 365) :=
          daysBeforeYear_succ (d.year - 1) (by omega)
        have hey : d.year - 1 + 1 = d.year := by omega
        rw [hey] at hsy
        by_cases hl : isLeap (d.year - 1) = true
        · rw [if_pos hl] at hv13 hsy
          omega
        · rw [if_neg hl] at hv13 hsy
          omega

theorem nextDay_iter (d : Date) (hd : d.Valid) (k : Nat) :
    (nextDay^[k] d).Valid ∧ toDays (nextDay^[k] d) = toDays d + k := by
  induction k with
  | zero => exact ⟨hd, rfl⟩
  | succ j ih =>
    rw [Function.iterate_succ_apply']
    obtain ⟨v, e⟩ := ih
    obtain ⟨v2, e2⟩ := nextDay_toDays _ v
    exact ⟨v2, by omega⟩

theorem prevDay_iter (d : Date) (hd : d.Valid) :
    ∀ k : Nat, k + 1 ≤ toDays d →
      (prevDay^[k] d).Valid ∧ toDays (prevDay^[k] d) + k = toDays d := by
  intro k
  induction k with
  | zero => exact fun _ => ⟨hd, rfl⟩
  | succ j ih =>
    intro hk
    obtain ⟨v, e⟩ := ih (by omega)
    rw [Function.iterate_succ_apply']
    obtain ⟨v2, e2⟩ := prevDay_toDays _ v (by omega)
    exact ⟨v2, by omega⟩

theorem addDays_spec (d : Date) (hd : d.Valid) (n : Int)
    (h : 1 ≤ (toDays d : Int) + n) :
    (addDays d n).Valid ∧ (toDays (addDays d n) : Int) = (toDays d : Int) + n := by
  unfold addDays
  by_cases hn : 0 ≤ n
  · rw [if_pos hn]
    obtain ⟨v, e⟩ := nextDay_iter d hd n.toNat
    refine ⟨v, ?_⟩
    rw [e]
    push_cast
    omega
  · rw [if_neg hn]
    have hk : (-n).toNat + 1 ≤ toDays d := by omega
    obtain ⟨v, e⟩ := prevDay_iter d hd (-n).toNat hk
    refine ⟨v, ?_⟩
    omega

theorem isoweekday_range (d : Date) : 1 ≤ isoweekday d ∧ isoweekday d ≤ 7 := by
  unfold isoweekday
  omega

/-- The week bucket `d + timedelta(days=1-d.isoweekday())` (line 251) is the
Monday on or before `d`. -/
theorem weekStart_spec (d : Date) (hd : d.Valid) :
    (addDays d (1 - (isoweekday d : Int))).Valid ∧
    isoweekday (addDays d (1 - (isoweekday d : Int))) = 1 ∧
    toDays (addDays d (1 - (isoweekday d : Int))) ≤ toDays d ∧
    toDays d < toDays (addDays d (1 - (isoweekday d : Int))) + 7 := by
  have hT := toDays_pos d hd
  set n : Int := 1 - (isoweekday d : Int) with hn
  have hnn : n = 1 - ((((toDays d + 6) % 7 : Nat) : Int) + 1) := by
    rw [hn]
    unfold isoweekday
    push_cast
    omega
  have hbound : 1 ≤ (toDays d : Int) + n := by omega
  obtain ⟨hv, he⟩ := addDays_spec d hd n hbound
  have hnat : toDays (addDays d n) + (toDays d + 6) % 7 = toDays d := by omega
  refine ⟨hv, ?_, by omega, by omega⟩
  unfold isoweekday
  omega

/-- Stepping back within a month: iterating `prevDay` from day `j + 1`
reaches day 1 without leaving the month. -/
theorem prevDay_in_month (y m : Nat) :
    ∀ j : Nat, prevDay^[j] { year := y, month := m, day := j + 1 } =
      { year := y, month := m, day := 1 } := by
  intro j
  induction j with
  | zero => rfl
  | succ k ih =>
    rw [Function.iterate_succ_apply]
    have hstep : prevDay { year := y, month := m, day := k + 2 } =
        { year := y, month := m, day := k + 1 } := by
      unfold prevDay
      rw [if_pos (by dsimp; omega)]
      rfl
    rw [hstep, ih]

/-- The month bucket `d + timedelta(days=1-d.day)` (line 253) is the first
day of `d`'s month. -/
theorem monthStart_spec (d : Date) (hd : d.Valid) :
    addDays d (1 - (d.day : Int)) = { year := d.year, month := d.month, day := 1 } := by
  obtain ⟨hy, hm1, hm2, hd1, hd2⟩ := hd
  unfold addDays
  by_cases h : (0 : Int) ≤ 1 - (d.day : Int)
  · have hday : d.day = 1 := by omega
    rw [if_pos h]
    have hz : ((1 : Int) - (d.day : Int)).toNat = 0 := by omega
    rw [hz, Function.iterate_zero_apply]
    cases d
    simp_all
  · rw [if_neg h]
    have hk : (-(1 - (d.day : Int))).toNat = d.day - 1 := by omega
    rw [hk]
    obtain ⟨j, hj⟩ : ∃ j, d.day = j + 1 := ⟨d.day - 1, by omega⟩
    have hde : d = { year := d.year, month := d.month, day := j + 1 } := by
      cases d
      simp_all
    rw [hde]
    have : j + 1 - 1 = j := by omega
    rw [this]
    exact prevDay_in_month d.year d.month j

/-! ## Claim C8: bucket keys per granularity -/

/-- C8: for a valid timestamp the bucket keys are: `'hour'` the timestamp
truncated to the start of its hour, `'day'` its calendar date, `'week'` the
Monday on or before its date, `'month'` the first day of its month. -/
theorem C8_buckets (v : DateTime) (hv : v.Valid) :
    periodOf "hour" v =
      PKey.dt { date := v.date, hour := v.hour, minute := 0, second := 0 } ∧
    periodOf "day" v = PKey.d v.date ∧
    (∃ w : Date, periodOf "week" v = PKey.d w ∧ w.Valid ∧ isoweekday w = 1 ∧
      toDays w ≤ toDays v.date ∧ toDays v.date < toDays w + 7) ∧
    periodOf "month" v =
      PKey.d { year := v.date.year, month := v.date.month, day := 1 } := by
  obtain ⟨hw1, hw2, hw3, hw4⟩ := weekStart_spec v.date hv.1
  refine ⟨rfl, rfl, ⟨addDays v.date (1 - (isoweekday v.date : Int)), rfl, hw1, hw2, hw3, hw4⟩, ?_⟩
  show PKey.d (addDays v.date (1 - (v.date.day : Int))) = _
  rw [monthStart_spec v.date hv.1]

/-- C8 witness: the bucket characterisation at 2024-03-15 14:30:45. -/
theorem C8_buckets_w :
    (⟨⟨2024, 3, 15⟩, 14, 30, 45⟩ : DateTime).Valid ∧
    (periodOf "hour" ⟨⟨2024, 3, 15⟩, 14, 30, 45⟩ =
      PKey.dt { date := (⟨⟨2024, 3, 15⟩, 14, 30, 45⟩ : DateTime).date,
                hour := (⟨⟨2024, 3, 15⟩, 14, 30, 45⟩ : DateTime).hour,
                minute := 0, second := 0 } ∧
     periodOf "day" ⟨⟨2024, 3, 15⟩, 14, 30, 45⟩ =
      PKey.d (⟨⟨2024, 3, 15⟩, 14, 30, 45⟩ : DateTime).date ∧
     (∃ w : Date, periodOf "week" ⟨⟨2024, 3, 15⟩, 14, 30, 45⟩ = PKey.d w ∧
        w.Valid ∧ isoweekday w = 1 ∧
        toDays w ≤ toDays (⟨⟨2024, 3, 15⟩, 14, 30, 45⟩ : DateTime).date ∧
        toDays (⟨⟨2024, 3, 15⟩, 14, 30, 45⟩ : DateTime).date < toDays w + 7) ∧
     periodOf "month" ⟨⟨2024, 3, 15⟩, 14, 30, 45⟩ =
      PKey.d { year := (⟨⟨2024, 3, 15⟩, 14, 30, 45⟩ : DateTime).date.year,
               month := (⟨⟨2024, 3, 15⟩, 14, 30, 45⟩ : DateTime).date.month,
               day := 1 }) :=
  ⟨by decide, C8_buckets ⟨⟨2024, 3, 15⟩, 14, 30, 45⟩ (by decide)⟩

/-! ## Claim C6: series total equals message count -/

theorem fillMissing_sum (period : String) :
    ∀ (fuel : Nat) (l t : PKey),
      ((fillMissing period fuel l t).map Prod.snd).sum = 0 := by
  intro fuel
  induction fuel with
  | zero => intro l t; rfl
  | succ f ih =>
    intro l t
    unfold fillMissing
    dsimp only
    by_cases hc : keyLtB (periodStep period l) t = true
    · rw [if_pos hc]
      rw [List.map_cons, List.sum_cons, ih]
    · rw [if_neg hc]
      rfl

theorem buildOut_sum (period : String) (counts : PKey → Nat) :
    ∀ (dates : List PKey) (lastOpt : Option PKey),
      ((buildOut period counts dates lastOpt).map Prod.snd).sum =
        (dates.map counts).sum := by
  intro dates
  induction dates with
  | nil => intro l; rfl
  | cons dte rest ih =>
    intro lastOpt
    cases lastOpt with
    | none =>
      unfold buildOut
      dsimp only
      rw [List.nil_append, List.map_cons, List.sum_cons, ih, List.map_cons, List.sum_cons]
    | some l =>
      unfold buildOut
      dsimp only
      rw [List.map_append, List.sum_append, List.map_cons, List.sum_cons, ih,
        fillMissing_sum, List.map_cons, List.sum_cons]
      omega

theorem map_sum_update (k : PKey) (cnt : Nat) :
    ∀ (dates : List PKey) (counts : PKey → Nat), dates.Nodup → k ∈ dates →
      (dates.map (fun x => if x = k then counts x + cnt else counts x)).sum =
        (dates.map counts).sum + cnt := by
  intro dates
  induction dates with
  | nil => intro counts _ hk; cases hk
  | cons a rest ih =>
    intro counts hnd hk
    rw [List.map_cons, List.map_cons, List.sum_cons, List.sum_cons]
    rcases List.mem_cons.mp hk with heq | hmem
    · subst heq
      rw [if_pos rfl]
      have hnot : ∀ x ∈ rest, x ≠ k := by
        intro x hx he
        exact (List.nodup_cons.mp hnd).1 (he ▸ hx)
      have hrest : rest.map (fun x => if x = k then counts x + cnt else counts x) =
          rest.map counts := by
        apply List.map_congr_left
        intro x hx
        rw [if_neg (hnot x hx)]
      rw [hrest]
      omega
    · by_cases ha : a = k
      · subst ha
        exact absurd hmem (List.nodup_cons.mp hnd).1
      · rw [if_neg ha, ih counts (List.nodup_cons.mp hnd).2 hmem]
        omega

theorem accumStep_facts (counter period : String) (acc : AggAcc) (m : Message)
    (h1 : acc.dates.Nodup) (h2 : ∀ k, k ∉ acc.dates → acc.counts k = 0) :
    (accumStep counter period acc m).dates.Nodup ∧
    (∀ k, k ∉ (accumStep counter period acc m).dates →
      (accumStep counter period acc m).counts k = 0) ∧
    ((accumStep counter period acc m).dates.map
        (accumStep counter period acc m).counts).sum =
      (acc.dates.map acc.counts).sum + metricCount counter m := by
  unfold accumStep
  dsimp only
  by_cases hk : periodOf period m.dt ∈ acc.dates
  · rw [if_pos hk]
    refine ⟨h1, ?_, ?_⟩
    · intro k hknot
      rw [if_neg (by intro he; rw [he] at hknot; exact hknot hk)]
      exact h2 k hknot
    · exact map_sum_update _ _ acc.dates acc.counts h1 hk
  · rw [if_neg hk]
    refine ⟨?_, ?_, ?_⟩
    · rw [List.nodup_append]
      exact ⟨h1, List.nodup_singleton _, by simpa using fun hmem => hk hmem⟩
    · intro k hknot
      have hneq : k ≠ periodOf period m.dt := by
        intro he
        exact hknot (by simp [he])
      have hkd : k ∉ acc.dates := fun hmem => hknot (by simp [hmem])
      rw [if_neg hneq]
      exact h2 k hkd
    · rw [List.map_append, List.sum_append]
      have hrest : acc.dates.map
          (fun x => if x = periodOf period m.dt then acc.counts x + metricCount counter m
                    else acc.counts x) = acc.dates.map acc.counts := by
        apply List.map_congr_left
        intro x hx
        rw [if_neg (by intro he; rw [he] at hx; exact hk hx)]
      rw [hrest]
      have hz : acc.counts (periodOf period m.dt) = 0 := h2 _ hk
      simp [hz]

theorem accum_inv (counter period : String) :
    ∀ (msgs : List Message) (acc : AggAcc),
      acc.dates.Nodup → (∀ k, k ∉ acc.dates → acc.counts k = 0) →
      (msgs.foldl (accumStep counter period) acc).dates.Nodup ∧
      (∀ k, k ∉ (msgs.foldl (accumStep counter period) acc).dates →
        (msgs.foldl (accumStep counter period) acc).counts k = 0) ∧
      ((msgs.foldl (accumStep counter period) acc).dates.map
          (msgs.foldl (accumStep counter period) acc).counts).sum =
        (acc.dates.map acc.counts).sum + (msgs.map (metricCount counter)).sum := by
  intro msgs
  induction msgs with
  | nil =>
    intro acc hA hB
    exact ⟨hA, hB, by simp⟩
  | cons m rest ih =>
    intro acc hA hB
    rw [List.foldl_cons]
    obtain ⟨s1, s2, s3⟩ := accumStep_facts counter period acc m hA hB
    obtain ⟨r1, r2, r3⟩ := ih (accumStep counter period acc m) s1 s2
    refine ⟨r1, r2, ?_⟩
    rw [r3, s3, List.map_cons, List.sum_cons]
    omega

theorem metric_messages_one (m : Message) : metricCount "messages" m = 1 := rfl

theorem sum_map_messages : ∀ msgs : List Message,
    (msgs.map (metricCount "messages")).sum = msgs.length := by
  intro msgs
  induction msgs with
  | nil => rfl
  | cons m rest ih =>
    rw [List.map_cons, List.sum_cons, metric_messages_one, ih, List.length_cons]
    omega

/-- C6: the bucket values of the day series for the message-count metric sum
to the number of messages, gap-fill entries (all zero) included, for every
analyser state. -/
theorem C6_sum (st : AnalyserState) :
    ((countPerPeriod st "messages" "day").map Prod.snd).sum = st.messages.length := by
  unfold countPerPeriod
  dsimp only
  rw [buildOut_sum]
  obtain ⟨-, -, hsum⟩ :=
    accum_inv "messages" "day" st.messages {} List.nodup_nil (fun k _ => rfl)
  rw [hsum, sum_map_messages]
  simp

/-! ## Claim C7: gap-free series machinery -/

theorem keyLtB_iff (a b : PKey) : keyLtB a b = true ↔ keyIdx a < keyIdx b := by
  unfold keyLtB
  exact decide_eq_true_iff

theorem getLast?_mem_list (l : List PKey) (a : PKey) (h : l.getLast? = some a) :
    a ∈ l := by
  have hm := List.mem_getLast?_eq_getLast (l := l) (x := a)
    (by rw [h]; exact Option.mem_some_iff.mpr rfl)
  obtain ⟨hne, rfl⟩ := hm
  exact List.getLast_mem hne

/-- Iterating the granularity step preserves the shape and advances the
index by at least the iteration count. -/
theorem step_iter_facts {period : String} {Shape : PKey → Prop}
    (F : PeriodFacts period Shape) (k : PKey) (hk : Shape k) :
    ∀ n : Nat, Shape ((periodStep period)^[n] k) ∧
      keyIdx k + n ≤ keyIdx ((periodStep period)^[n] k) := by
  intro n
  induction n with
  | zero => exact ⟨hk, by simp⟩
  | succ j ih =>
    rw [Function.iterate_succ_apply']
    obtain ⟨hs, hi⟩ := ih
    have h1 := F.shape_step _ hs
    have h2 := F.idx_step _ hs
    exact ⟨h1, by omega⟩

theorem chainLt_append (k : PKey) :
    ∀ dates : List PKey, ChainLtKeys dates →
      (∀ last, dates.getLast? = some last → keyIdx last < keyIdx k) →
      ChainLtKeys (dates ++ [k]) := by
  intro dates
  induction dates with
  | nil => intro _ _; trivial
  | cons a rest ih =>
    intro hch hlast
    cases rest with
    | nil =>
      exact ⟨hlast a rfl, trivial⟩
    | cons b t =>
      obtain ⟨h1, h2⟩ := hch
      refine ⟨h1, ih h2 ?_⟩
      intro last hl
      exact hlast last (by rw [List.getLast?_cons_cons]; exact hl)

theorem fillMissing_mem (period : String) :
    ∀ (fuel : Nat) (l t : PKey) (p : PKey × Nat),
      p ∈ fillMissing period fuel l t → p.2 = 0 := by
  intro fuel
  induction fuel with
  | zero => intro l t p hp; cases hp
  | succ f ih =>
    intro l t p hp
    unfold fillMissing at hp
    dsimp only at hp
    by_cases hc : keyLtB (periodStep period l) t = true
    · rw [if_pos hc] at hp
      rcases List.mem_cons.mp hp with he | hmem
      · rw [he]
      · exact ih _ _ p hmem
    · rw [if_neg hc] at hp
      cases hp

/-- Every entry of the output loop either is a synthesized zero or carries
an observed bucket key. -/
theorem buildOut_values (period : String) (counts : PKey → Nat) :
    ∀ (dates : List PKey) (lastOpt : Option PKey) (p : PKey × Nat),
      p ∈ buildOut period counts dates lastOpt → p.2 = 0 ∨ p.1 ∈ dates := by
  intro dates
  induction dates with
  | nil => intro lastOpt p hp; cases hp
  | cons d rest ih =>
    intro lastOpt p hp
    unfold buildOut at hp
    rcases List.mem_append.mp hp with hfill | hrest
    · cases lastOpt with
      | none => cases hfill
      | some l => exact Or.inl (fillMissing_mem period _ _ _ p hfill)
    · rcases List.mem_cons.mp hrest with he | hmem
      · right
        rw [he]
        exact List.mem_cons_self d rest
      · rcases ih (some d) p hmem with h0 | hin
        · exact Or.inl h0
        · exact Or.inr (List.mem_cons_of_mem d hin)

/-- The fill loop between two grid-adjacent keys yields exactly the
intermediate grid points, each with value 0, whenever the iteration bound
covers the gap. -/
theorem fillMissing_grid {period : String} {Shape : PKey → Prop}
    (F : PeriodFacts period Shape) :
    ∀ (m : Nat) (l : PKey), Shape l → 0 < m →
      ∀ fuel : Nat, m - 1 ≤ fuel →
        fillMissing period fuel l ((periodStep period)^[m] l) =
          (List.range (m - 1)).map (fun i => ((periodStep period)^[i + 1] l, 0)) := by
  intro m
  induction m with
  | zero =>
    intro l _ h0
    exact absurd h0 (by omega)
  | succ m' ih =>
    intro l hl _ fuel hfuel
    by_cases hm : m' = 0
    · subst hm
      have hcond : ¬(keyLtB (periodStep period l) ((periodStep period)^[1] l) = true) := by
        rw [keyLtB_iff, Function.iterate_one]
        omega
      cases fuel with
      | zero => rfl
      | succ f =>
        unfold fillMissing
        dsimp only
        rw [if_neg hcond]
        rfl
    · have hm1 : 1 ≤ m' := by omega
      cases fuel with
      | zero => omega
      | succ f =>
        have hcond : keyLtB (periodStep period l) ((periodStep period)^[m' + 1] l) = true := by
          rw [keyLtB_iff]
          obtain ⟨hs, hi⟩ := step_iter_facts F (periodStep period l) (F.shape_step l hl) m'
          rw [← Function.iterate_succ_apply] at hi
          simp only [Nat.succ_eq_add_one] at hi
          omega
        unfold fillMissing
        dsimp only
        rw [if_pos hcond]
        rw [Function.iterate_succ_apply]
        rw [ih (periodStep period l) (F.shape_step l hl) (by omega) f (by omega)]
        have hms : m' + 1 - 1 = m' := rfl
        rw [hms]
        obtain ⟨j, rfl⟩ : ∃ j, m' = j + 1 := ⟨m' - 1, by omega⟩
        rw [List.range_succ_eq_map j, List.map_cons, List.map_map]
        have he0 : ((periodStep period)^[0 + 1] l, 0) = (periodStep period l, 0) := by
          rw [Function.iterate_one]
        rw [he0]
        have hj : j + 1 - 1 = j := rfl
        rw [hj]
        congr 1

/-- One counting step preserves the dates-list invariant: shaped keys in
strictly increasing order, ending at the key of the most recent message. -/
theorem accumStep_chain {period : String} {Shape : PKey → Prop}
    (F : PeriodFacts period Shape) (counter : String) (acc : AggAcc)
    (lastM m : Message)
    (hvl : lastM.dt.Valid) (hvm : m.dt.Valid)
    (hord : dtSecs lastM.dt ≤ dtSecs m.dt)
    (hsh : ∀ k ∈ acc.dates, Shape k) (hch : ChainLtKeys acc.dates)
    (hlast : acc.dates.getLast? = some (periodOf period lastM.dt))
    (hbd : ∀ k ∈ acc.dates, keyIdx k ≤ keyIdx (periodOf period lastM.dt)) :
    (∀ k ∈ (accumStep counter period acc m).dates, Shape k) ∧
    ChainLtKeys (accumStep counter period acc m).dates ∧
    (accumStep counter period acc m).dates.getLast? =
      some (periodOf period m.dt) ∧
    (∀ k ∈ (accumStep counter period acc m).dates,
      keyIdx k ≤ keyIdx (periodOf period m.dt)) ∧
    (accumStep counter period acc m).dates.head? = acc.dates.head? := by
  have hmono := F.key_mono lastM.dt m.dt hvl hvm hord
  have hshm : Shape (periodOf period m.dt) := F.shape_key m.dt hvm
  have hshl : Shape (periodOf period lastM.dt) :=
    hsh _ (getLast?_mem_list _ _ hlast)
  unfold accumStep
  dsimp only
  by_cases hk : periodOf period m.dt ∈ acc.dates
  · rw [if_pos hk]
    have heq : periodOf period m.dt = periodOf period lastM.dt := by
      apply F.idx_inj _ _ hshm hshl
      have h1 := hbd _ hk
      omega
    refine ⟨hsh, hch, ?_, ?_, rfl⟩
    · rw [hlast, heq]
    · intro k hkm
      rw [← heq] at hbd
      exact hbd k hkm
  · rw [if_neg hk]
    have hlt : keyIdx (periodOf period lastM.dt) < keyIdx (periodOf period m.dt) := by
      rcases lt_or_eq_of_le hmono with h | h
      · exact h
      · exact absurd (F.idx_inj _ _ hshl hshm h ▸ getLast?_mem_list _ _ hlast) hk
    refine ⟨?_, ?_, ?_, ?_, ?_⟩
    · intro k hkm
      rcases List.mem_append.mp hkm with hin | hnew
      · exact hsh k hin
      · rw [List.mem_singleton.mp hnew]
        exact hshm
    · refine chainLt_append _ acc.dates hch ?_
      intro last hl
      have : last = periodOf period lastM.dt := by
        rw [hlast] at hl
        exact Option.some.inj hl.symm
      rw [this]
      exact hlt
    · exact List.getLast?_concat acc.dates
    · intro k hkm
      rcases List.mem_append.mp hkm with hin | hnew
      · have := hbd k hin
        omega
      · rw [List.mem_singleton.mp hnew]
    · cases hd : acc.dates with
      | nil => rw [hd] at hlast; cases hlast
      | cons a t => rfl

/-- The dates-list invariant threaded along the counting loop. -/
theorem accum_chain {period : String} {Shape : PKey → Prop}
    (F : PeriodFacts period Shape) (counter : String) :
    ∀ (msgs : List Message) (acc : AggAcc) (lastM : Message),
      lastM.dt.Valid →
      (∀ m ∈ msgs, m.dt.Valid) →
      ChronOrder (lastM :: msgs) →
      (∀ k ∈ acc.dates, Shape k) →
      ChainLtKeys acc.dates →
      acc.dates.getLast? = some (periodOf period lastM.dt) →
      (∀ k ∈ acc.dates, keyIdx k ≤ keyIdx (periodOf period lastM.dt)) →
      (∀ k ∈ (msgs.foldl (accumStep counter period) acc).dates, Shape k) ∧
      ChainLtKeys (msgs.foldl (accumStep counter period) acc).dates ∧
      (msgs.foldl (accumStep counter period) acc).dates.getLast? =
        some (periodOf period (msgs.getLastD lastM).dt) ∧
      (msgs.foldl (accumStep counter period) acc).dates.head? = acc.dates.head? := by
  intro msgs
  induction msgs with
  | nil =>
    intro acc lastM _ _ _ h1 h2 h3 _
    exact ⟨h1, h2, h3, rfl⟩
  | cons m rest ih =>
    intro acc lastM hvl hvm hord h1 h2 h3 h4
    have hord1 : dtSecs lastM.dt ≤ dtSecs m.dt := hord.1
    have hord2 : ChronOrder (m :: rest) := hord.2
    obtain ⟨s1, s2, s3, s4, s5⟩ := accumStep_chain F counter acc lastM m hvl
      (hvm m (List.mem_cons_self m rest)) hord1 h1 h2 h3 h4
    rw [List.foldl_cons]
    obtain ⟨r1, r2, r3, r4⟩ := ih (accumStep counter period acc m) m
      (hvm m (List.mem_cons_self m rest))
      (fun x hx => hvm x (List.mem_cons_of_mem m hx)) hord2 s1 s2 s3 s4
    rw [List.getLastD_cons]
    exact ⟨r1, r2, r3, by rw [r4, s5]⟩

/-- Every observed bucket key comes from a message of the run. -/
theorem accum_sub (counter period : String) :
    ∀ (msgs : List Message) (acc : AggAcc),
      ∀ k ∈ (msgs.foldl (accumStep counter period) acc).dates,
        k ∈ acc.dates ∨ k ∈ messageKeys period msgs := by
  intro msgs
  induction msgs with
  | nil => intro acc k hk; exact Or.inl hk
  | cons m rest ih =>
    intro acc k hk
    rw [List.foldl_cons] at hk
    rcases ih (accumStep counter period acc m) k hk with hin | hkeys
    · unfold accumStep at hin
      dsimp only at hin
      by_cases hmem : periodOf period m.dt ∈ acc.dates
      · rw [if_pos hmem] at hin
        exact Or.inl hin
      · rw [if_neg hmem] at hin
        rcases List.mem_append.mp hin with h | h
        · exact Or.inl h
        · right
          rw [List.mem_singleton.mp h]
          exact List.mem_cons_self _ _
    · right
      exact List.mem_cons_of_mem _ hkeys

/-- The output loop over a shaped, strictly increasing date list starting
after `l` walks exactly the step grid from `l` (exclusive) to the last
date. -/
theorem buildOut_grid {period : String} {Shape : PKey → Prop}
    (F : PeriodFacts period Shape) (counts : PKey → Nat) :
    ∀ (dates : List PKey) (l : PKey),
      Shape l → (∀ k ∈ dates, Shape k) → ChainLtKeys (l :: dates) →
      ∃ M : Nat,
        (buildOut period counts dates (some l)).map Prod.fst =
          (List.range M).map (fun i => (periodStep period)^[i + 1] l) ∧
        dates.getLastD l = (periodStep period)^[M] l := by
  intro dates
  induction dates with
  | nil =>
    intro l _ _ _
    exact ⟨0, rfl, rfl⟩
  | cons d rest ih =>
    intro l hl hsh hch
    have hld : keyIdx l < keyIdx d := hch.1
    have hshd : Shape d := hsh d (List.mem_cons_self d rest)
    obtain ⟨m, hm, hd⟩ := F.connect l d hl hshd hld
    obtain ⟨M', hgrid, hlast⟩ := ih d hshd
      (fun k hk => hsh k (List.mem_cons_of_mem d hk)) hch.2
    refine ⟨m + M', ?_, ?_⟩
    · have hfill : fillMissing period (keyIdx d - keyIdx l).toNat l d =
          (List.range (m - 1)).map (fun i => ((periodStep period)^[i + 1] l, 0)) := by
        rw [hd]
        apply fillMissing_grid F m l hl hm
        obtain ⟨-, hi⟩ := step_iter_facts F l hl m
        omega
      unfold buildOut
      dsimp only
      rw [List.map_append, List.map_cons, hfill, List.map_map, hgrid]
      have hcomp : Prod.fst ∘ (fun i => ((periodStep period)^[i + 1] l, (0 : Nat))) =
          fun i => (periodStep period)^[i + 1] l := rfl
      rw [hcomp]
      rw [List.range_add, List.map_append, List.map_map]
      have htail : (List.range M').map
            ((fun i => (periodStep period)^[i + 1] l) ∘ (fun x => m + x)) =
          (List.range M').map (fun i => (periodStep period)^[i + 1] d) := by
        apply List.map_congr_left
        intro i _
        show (periodStep period)^[m + i + 1] l = (periodStep period)^[i + 1] d
        rw [hd, ← Function.iterate_add_apply]
        congr 1
        omega
      rw [htail]
      have hhead : (List.range m).map (fun i => (periodStep period)^[i + 1] l) =
          (List.range (m - 1)).map (fun i => (periodStep period)^[i + 1] l) ++ [d] := by
        obtain ⟨j, hjm⟩ : ∃ j, m = j + 1 := ⟨m - 1, by omega⟩
        subst hjm
        rw [List.range_succ j, List.map_append]
        have hj : j + 1 - 1 = j := rfl
        rw [hj]
        congr 1
        rw [hd]
        simp
      rw [hhead, List.append_assoc, List.singleton_append]
    · rw [List.getLastD_cons, hlast, hd, ← Function.iterate_add_apply]
      congr 1
      omega

/-! ## Chronological order determines valid dates (toDays is injective) -/

theorem daysBeforeYear_mono {y y' : Nat} (h : y ≤ y') :
    daysBeforeYear y ≤ daysBeforeYear y' := by
  unfold daysBeforeYear
  omega

theorem toDays_ub (d : Date) (hd : d.Valid) :
    toDays d ≤ daysBeforeYear d.year + daysBeforeMonth d.year 13 := by
  obtain ⟨hy, hm1, hm2, hd1, hd2⟩ := hd
  unfold toDays
  have ha : daysBeforeMonth d.year d.month + d.day ≤
      daysBeforeMonth d.year (d.month + 1) := by
    rw [daysBeforeMonth_succ d.year d.month hm1]
    omega
  have hb : daysBeforeMonth d.year (d.month + 1) ≤ daysBeforeMonth d.year 13 :=
    daysBeforeMonth_le d.year (by omega) (by omega)
  omega

theorem daysBeforeYear_succ_eq (y : Nat) (h : 1 ≤ y) :
    daysBeforeYear (y + 1) = daysBeforeYear y + daysBeforeMonth y 13 := by
  rw [daysBeforeYear_succ y h, daysBeforeMonth_13]

theorem toDays_lt_year (d1 d2 : Date) (h1 : d1.Valid) (h2 : d2.Valid)
    (hy : d1.year < d2.year) : toDays d1 < toDays d2 := by
  have hub := toDays_ub d1 h1
  have hs := daysBeforeYear_succ_eq d1.year h1.1
  have hmono := daysBeforeYear_mono (show d1.year + 1 ≤ d2.year by omega)
  have hlb : daysBeforeYear d2.year + 1 ≤ toDays d2 := by
    obtain ⟨-, -, -, hd1, -⟩ := h2
    unfold toDays
    omega
  omega

theorem toDays_lt_month (d1 d2 : Date) (h1 : d1.Valid) (h2 : d2.Valid)
    (hy : d1.year = d2.year) (hm : d1.month < d2.month) : toDays d1 < toDays d2 := by
  obtain ⟨hy1, hm11, hm12, hdd1, hdd2⟩ := h1
  obtain ⟨hy2, hm21, hm22, hdd3, hdd4⟩ := h2
  rw [hy] at hdd2
  unfold toDays
  rw [hy]
  have ha : daysBeforeMonth d2.year d1.month + d1.day ≤
      daysBeforeMonth d2.year (d1.month + 1) := by
    rw [daysBeforeMonth_succ d2.year d1.month hm11]
    omega
  have hb : daysBeforeMonth d2.year (d1.month + 1) ≤ daysBeforeMonth d2.year d2.month :=
    daysBeforeMonth_le d2.year (by omega) (by omega)
  omega

theorem toDays_inj (d1 d2 : Date) (h1 : d1.Valid) (h2 : d2.Valid)
    (he : toDays d1 = toDays d2) : d1 = d2 := by
  rcases Nat.lt_trichotomy d1.year d2.year with hy | hy | hy
  · exact absurd he (Nat.ne_of_lt (toDays_lt_year d1 d2 h1 h2 hy))
  · rcases Nat.lt_trichotomy d1.month d2.month with hm | hm | hm
    · exact absurd he (Nat.ne_of_lt (toDays_lt_month d1 d2 h1 h2 hy hm))
    · have hd : d1.day = d2.day := by
        unfold toDays at he
        rw [hy, hm] at he
        omega
      cases d1
      cases d2
      simp_all
    · exact absurd he.symm (Nat.ne_of_lt (toDays_lt_month d2 d1 h2 h1 hy.symm hm))
  · exact absurd he.symm (Nat.ne_of_lt (toDays_lt_year d2 d1 h2 h1 hy))

theorem dtSecs_dates (a b : DateTime) (ha : a.Valid) (hb : b.Valid)
    (h : dtSecs a ≤ dtSecs b) : toDays a.date ≤ toDays b.date := by
  obtain ⟨-, ha1, ha2, ha3⟩ := ha
  obtain ⟨-, hb1, hb2, hb3⟩ := hb
  unfold dtSecs at h
  omega

/-! ## Period facts: day -/

theorem dayFacts : PeriodFacts "day" DayShape where
  shape_key := by
    intro v hv
    exact ⟨v.date, rfl, hv.1⟩
  shape_step := by
    rintro k ⟨w, rfl, hw⟩
    exact ⟨nextDay w, rfl, (nextDay_toDays w hw).1⟩
  idx_step := by
    rintro k ⟨w, rfl, hw⟩
    show (toDays w : Int) < (toDays (nextDay w) : Int)
    have := (nextDay_toDays w hw).2
    omega
  key_mono := by
    intro a b ha hb hab
    show (toDays a.date : Int) ≤ (toDays b.date : Int)
    have := dtSecs_dates a b ha hb hab
    omega
  idx_inj := by
    rintro k k' ⟨w, rfl, hw⟩ ⟨w', rfl, hw'⟩ he
    have heq : toDays w = toDays w' := by
      have h2 : (toDays w : Int) = (toDays w' : Int) := he
      omega
    rw [toDays_inj w w' hw hw' heq]
  connect := by
    rintro k k' ⟨w, rfl, hw⟩ ⟨w', rfl, hw'⟩ hlt
    have hTT : toDays w < toDays w' := by
      have h2 : (toDays w : Int) < (toDays w' : Int) := hlt
      omega
    refine ⟨toDays w' - toDays w, by omega, ?_⟩
    have hiter : ∀ j : Nat, (periodStep "day")^[j] (PKey.d w) = PKey.d (nextDay^[j] w) := by
      intro j
      induction j with
      | zero => rfl
      | succ i ihj =>
        rw [Function.iterate_succ_apply', ihj, Function.iterate_succ_apply']
        rfl
    rw [hiter]
    obtain ⟨hval, hT⟩ := nextDay_iter w hw (toDays w' - toDays w)
    have hfin : nextDay^[toDays w' - toDays w] w = w' :=
      toDays_inj _ w' hval hw' (by omega)
    rw [hfin]

/-! ## Period facts: week -/

theorem week_iter (w : Date) (hw : w.Valid) (hiso : isoweekday w = 1) :
    ∀ j : Nat, ∃ u : Date, (periodStep "week")^[j] (PKey.d w) = PKey.d u ∧
      u.Valid ∧ isoweekday u = 1 ∧ toDays u = toDays w + 7 * j := by
  intro j
  induction j with
  | zero => exact ⟨w, rfl, hw, hiso, by omega⟩
  | succ i ih =>
    obtain ⟨u, he, hv, hu, hT⟩ := ih
    rw [Function.iterate_succ_apply', he]
    have hstep : periodStep "week" (PKey.d u) = PKey.d (addDays u 7) := rfl
    obtain ⟨hv2, hT2⟩ := addDays_spec u hv 7 (by have := toDays_pos u hv; omega)
    refine ⟨addDays u 7, hstep, hv2, ?_, by omega⟩
    unfold isoweekday at hu ⊢
    omega

theorem weekFacts : PeriodFacts "week" WeekShape where
  shape_key := by
    intro v hv
    obtain ⟨h1, h2, -, -⟩ := weekStart_spec v.date hv.1
    exact ⟨addDays v.date (1 - (isoweekday v.date : Int)), rfl, h1, h2⟩
  shape_step := by
    rintro k ⟨w, rfl, hw, hiso⟩
    obtain ⟨hv2, hT2⟩ := addDays_spec w hw 7 (by have := toDays_pos w hw; omega)
    refine ⟨addDays w 7, rfl, hv2, ?_⟩
    unfold isoweekday at hiso ⊢
    omega
  idx_step := by
    rintro k ⟨w, rfl, hw, hiso⟩
    show (toDays w : Int) < (toDays (addDays w 7) : Int)
    obtain ⟨hv2, hT2⟩ := addDays_spec w hw 7 (by have := toDays_pos w hw; omega)
    omega
  key_mono := by
    intro a b ha hb hab
    have hT := dtSecs_dates a b ha hb hab
    obtain ⟨hv1, hi1, hle1, hlt1⟩ := weekStart_spec a.date ha.1
    obtain ⟨hv2, hi2, hle2, hlt2⟩ := weekStart_spec b.date hb.1
    show (toDays (addDays a.date (1 - (isoweekday a.date : Int))) : Int) ≤
      (toDays (addDays b.date (1 - (isoweekday b.date : Int))) : Int)
    set w1 := addDays a.date (1 - (isoweekday a.date : Int)) with hw1
    set w2 := addDays b.date (1 - (isoweekday b.date : Int)) with hw2
    unfold isoweekday at hi1 hi2
    omega
  idx_inj := by
    rintro k k' ⟨w, rfl, hw, -⟩ ⟨w', rfl, hw', -⟩ he
    have heq : toDays w = toDays w' := by
      have h2 : (toDays w : Int) = (toDays w' : Int) := he
      omega
    rw [toDays_inj w w' hw hw' heq]
  connect := by
    rintro k k' ⟨w, rfl, hw, hiso⟩ ⟨w', rfl, hw', hiso'⟩ hlt
    have hTT : toDays w < toDays w' := by
      have h2 : (toDays w : Int) < (toDays w' : Int) := hlt
      omega
    have hm7 : (toDays w' - toDays w) % 7 = 0 := by
      unfold isoweekday at hiso hiso'
      omega
    refine ⟨(toDays w' - toDays w) / 7, by omega, ?_⟩
    obtain ⟨u, he, hv, hu, hT⟩ := week_iter w hw hiso ((toDays w' - toDays w) / 7)
    rw [he]
    have hfin : u = w' := toDays_inj u w' hv hw' (by omega)
    rw [hfin]

/-! ## Period facts: month -/

theorem addMonth_first (y mo : Nat) (h12 : mo = 12 ∨ mo ≠ 12) :
    addMonth ⟨y, mo, 1⟩ =
      if mo = 12 then (⟨y + 1, 1, 1⟩ : Date) else ⟨y, mo + 1, 1⟩ := by
  unfold addMonth
  dsimp only
  by_cases hc : mo = 12
  · simp only [if_pos hc]
    congr 1
  · simp only [if_neg hc]
    congr 1
    exact Nat.min_eq_left (daysInMonth_pos y (mo + 1))

theorem month_iter : ∀ (j y mo : Nat), 1 ≤ y → 1 ≤ mo → mo ≤ 12 →
    ∃ y' mo', (periodStep "month")^[j] (PKey.d ⟨y, mo, 1⟩) = PKey.d ⟨y', mo', 1⟩ ∧
      1 ≤ y' ∧ 1 ≤ mo' ∧ mo' ≤ 12 ∧ 12 * y' + mo' = 12 * y + mo + j := by
  intro j
  induction j with
  | zero =>
    intro y mo h1 h2 h3
    exact ⟨y, mo, rfl, h1, h2, h3, by omega⟩
  | succ i ih =>
    intro y mo h1 h2 h3
    rw [Function.iterate_succ_apply]
    have hstep : periodStep "month" (PKey.d ⟨y, mo, 1⟩) =
        PKey.d (addMonth ⟨y, mo, 1⟩) := rfl
    rw [hstep, addMonth_first y mo (em _).symm.symm]
    by_cases h12 : mo = 12
    · rw [if_pos h12]
      obtain ⟨y', mo', he, a1, a2, a3, a4⟩ := ih (y + 1) 1 (by omega) (by omega) (by omega)
      exact ⟨y', mo', he, a1, a2, a3, by omega⟩
    · rw [if_neg h12]
      obtain ⟨y', mo', he, a1, a2, a3, a4⟩ := ih y (mo + 1) h1 (by omega) (by omega)
      exact ⟨y', mo', he, a1, a2, a3, by omega⟩

theorem firstOfMonth_valid (y mo : Nat) (h1 : 1 ≤ y) (h2 : 1 ≤ mo) (h3 : mo ≤ 12) :
    Date.Valid ⟨y, mo, 1⟩ :=
  ⟨h1, h2, h3, le_refl 1, daysInMonth_pos y mo⟩

/-- Chronological order of first-of-month dates matches the month index
12 * year + month. -/
theorem month_idx_lt (y1 m1 y2 m2 : Nat)
    (hv1 : Date.Valid ⟨y1, m1, 1⟩) (hv2 : Date.Valid ⟨y2, m2, 1⟩)
    (h : toDays (⟨y1, m1, 1⟩ : Date) < toDays (⟨y2, m2, 1⟩ : Date)) :
    12 * y1 + m1 < 12 * y2 + m2 := by
  obtain ⟨a1, a2, a3, -, -⟩ := id hv1
  obtain ⟨b1, b2, b3, -, -⟩ := id hv2
  by_contra hge
  push_neg at hge
  dsimp only at a2 a3 b2 b3
  have hcase : (y2 < y1 ∨ (y2 = y1 ∧ m2 < m1)) ∨ (y2 = y1 ∧ m2 = m1) := by
    omega
  rcases hcase with (hy | ⟨hy, hm⟩) | ⟨hy, hm⟩
  · have := toDays_lt_year ⟨y2, m2, 1⟩ ⟨y1, m1, 1⟩ hv2 hv1 hy
    omega
  · have := toDays_lt_month ⟨y2, m2, 1⟩ ⟨y1, m1, 1⟩ hv2 hv1 hy hm
    omega
  · subst hy
    subst hm
    omega

theorem monthFacts : PeriodFacts "month" MonthShape where
  shape_key := by
    intro v hv
    have hk : periodOf "month" v = PKey.d (addDays v.date (1 - (v.date.day : Int))) := rfl
    rw [hk, monthStart_spec v.date hv.1]
    obtain ⟨h1, h2, h3, -, -⟩ := hv.1
    exact ⟨⟨v.date.year, v.date.month, 1⟩, rfl, firstOfMonth_valid _ _ h1 h2 h3, rfl⟩
  shape_step := by
    rintro k ⟨w, rfl, hw, hd1⟩
    obtain ⟨h1, h2, h3, -, -⟩ := hw
    have hwe : w = ⟨w.year, w.month, 1⟩ := by
      cases w
      dsimp only at hd1
      rw [hd1]
    have hstep : periodStep "month" (PKey.d w) = PKey.d (addMonth w) := rfl
    rw [hstep, hwe, addMonth_first w.year w.month (em _).symm.symm]
    by_cases h12 : w.month = 12
    · rw [if_pos h12]
      exact ⟨⟨w.year + 1, 1, 1⟩, rfl, firstOfMonth_valid _ _ (by omega) (by omega) (by omega), rfl⟩
    · rw [if_neg h12]
      exact ⟨⟨w.year, w.month + 1, 1⟩, rfl,
        firstOfMonth_valid _ _ (by omega) (by omega) (by omega), rfl⟩
  idx_step := by
    rintro k ⟨w, rfl, hw, hd1⟩
    obtain ⟨h1, h2, h3, -, -⟩ := hw
    have hwe : w = ⟨w.year, w.month, 1⟩ := by
      cases w
      dsimp only at hd1
      rw [hd1]
    have hstep : periodStep "month" (PKey.d w) = PKey.d (addMonth w) := rfl
    show keyIdx (PKey.d w) < keyIdx (periodStep "month" (PKey.d w))
    rw [hstep, hwe, addMonth_first w.year w.month (em _).symm.symm]
    by_cases h12 : w.month = 12
    · rw [if_pos h12]
      show (toDays (⟨w.year, w.month, 1⟩ : Date) : Int) <
        (toDays (⟨w.year + 1, 1, 1⟩ : Date) : Int)
      have := toDays_lt_year ⟨w.year, w.month, 1⟩ ⟨w.year + 1, 1, 1⟩
        (firstOfMonth_valid _ _ h1 h2 h3)
        (firstOfMonth_valid _ _ (by omega) (by omega) (by omega)) (by dsimp only; omega)
      omega
    · rw [if_neg h12]
      show (toDays (⟨w.year, w.month, 1⟩ : Date) : Int) <
        (toDays (⟨w.year, w.month + 1, 1⟩ : Date) : Int)
      have := toDays_lt_month ⟨w.year, w.month, 1⟩ ⟨w.year, w.month + 1, 1⟩
        (firstOfMonth_valid _ _ h1 h2 h3)
        (firstOfMonth_valid _ _ (by omega) (by omega) (by omega)) rfl (by dsimp only; omega)
      omega
  key_mono := by
    intro a b ha hb hab
    have hT := dtSecs_dates a b ha hb hab
    have hka : periodOf "month" a = PKey.d (addDays a.date (1 - (a.date.day : Int))) := rfl
    have hkb : periodOf "month" b = PKey.d (addDays b.date (1 - (b.date.day : Int))) := rfl
    rw [hka, hkb, monthStart_spec a.date ha.1, monthStart_spec b.date hb.1]
    obtain ⟨a1, a2, a3, -, -⟩ := ha.1
    obtain ⟨b1, b2, b3, -, -⟩ := hb.1
    show (toDays (⟨a.date.year, a.date.month, 1⟩ : Date) : Int) ≤
      (toDays (⟨b.date.year, b.date.month, 1⟩ : Date) : Int)
    by_contra hgt
    push_neg at hgt
    have hgt2 : toDays (⟨b.date.year, b.date.month, 1⟩ : Date) <
        toDays (⟨a.date.year, a.date.month, 1⟩ : Date) := by omega
    have hidx := month_idx_lt _ _ _ _ (firstOfMonth_valid _ _ b1 b2 b3)
      (firstOfMonth_valid _ _ a1 a2 a3) hgt2
    -- but chronological order of the underlying dates forces the reverse
    have hcase : b.date.year < a.date.year ∨
        (b.date.year = a.date.year ∧ b.date.month < a.date.month) := by omega
    have hlt : toDays b.date < toDays a.date := by
      rcases hcase with hy | ⟨hy, hm⟩
      · exact toDays_lt_year b.date a.date hb.1 ha.1 hy
      · exact toDays_lt_month b.date a.date hb.1 ha.1 hy hm
    omega
  idx_inj := by
    rintro k k' ⟨w, rfl, hw, -⟩ ⟨w', rfl, hw', -⟩ he
    have heq : toDays w = toDays w' := by
      have h2 : (toDays w : Int) = (toDays w' : Int) := he
      omega
    rw [toDays_inj w w' hw hw' heq]
  connect := by
    rintro k k' ⟨w, rfl, hw, hd1⟩ ⟨w', rfl, hw', hd1'⟩ hlt
    obtain ⟨a1, a2, a3, -, -⟩ := id hw
    obtain ⟨b1, b2, b3, -, -⟩ := id hw'
    have hwe : w = ⟨w.year, w.month, 1⟩ := by
      cases w
      dsimp only at hd1
      rw [hd1]
    have hwe' : w' = ⟨w'.year, w'.month, 1⟩ := by
      cases w'
      dsimp only at hd1'
      rw [hd1']
    have hTT : toDays w < toDays w' := by
      have h2 : (toDays w : Int) < (toDays w' : Int) := hlt
      omega
    have hidx := month_idx_lt w.year w.month w'.year w'.month
      (hwe ▸ hw) (hwe' ▸ hw') (by rw [← hwe, ← hwe']; exact hTT)
    refine ⟨(12 * w'.year + w'.month) - (12 * w.year + w.month), by omega, ?_⟩
    obtain ⟨y', mo', he, c1, c2, c3, c4⟩ := month_iter
      ((12 * w'.year + w'.month) - (12 * w.year + w.month)) w.year w.month a1 a2 a3
    rw [hwe, he]
    have hy : y' = w'.year ∧ mo' = w'.month := by
      omega
    rw [hy.1, hy.2, ← hwe']

/-! ## Period facts: hour -/

theorem addHour_secs (v : DateTime) (hv : v.Valid) :
    (addHour v).Valid ∧ dtSecs (addHour v) = dtSecs v + 3600 ∧
    (addHour v).minute = v.minute ∧ (addHour v).second = v.second := by
  obtain ⟨hd, hh, hm, hs⟩ := hv
  unfold addHour
  by_cases h : v.hour + 1 < 24
  · rw [if_pos h]
    refine ⟨⟨hd, by dsimp only; omega, by dsimp only; omega, by dsimp only; omega⟩,
      ?_, rfl, rfl⟩
    unfold dtSecs
    dsimp only
    omega
  · rw [if_neg h]
    obtain ⟨hvn, hTn⟩ := nextDay_toDays v.date hd
    refine ⟨⟨hvn, by dsimp only; omega, by dsimp only; omega, by dsimp only; omega⟩,
      ?_, rfl, rfl⟩
    unfold dtSecs
    dsimp only
    rw [hTn]
    omega

theorem hour_iter (v : DateTime) (hv : v.Valid) (hm0 : v.minute = 0)
    (hs0 : v.second = 0) :
    ∀ j : Nat, ∃ u : DateTime, (periodStep "hour")^[j] (PKey.dt v) = PKey.dt u ∧
      u.Valid ∧ u.minute = 0 ∧ u.second = 0 ∧ dtSecs u = dtSecs v + 3600 * j := by
  intro j
  induction j with
  | zero => exact ⟨v, rfl, hv, hm0, hs0, by omega⟩
  | succ i ih =>
    obtain ⟨u, he, huv, hum, hus, huT⟩ := ih
    rw [Function.iterate_succ_apply', he]
    obtain ⟨h1, h2, h3, h4⟩ := addHour_secs u huv
    exact ⟨addHour u, rfl, h1, by rw [h3, hum], by rw [h4, hus], by omega⟩

theorem dtSecs_inj_aligned (v v' : DateTime) (hv : v.Valid) (hv' : v'.Valid)
    (hm : v.minute = 0) (hs : v.second = 0) (hm' : v'.minute = 0) (hs' : v'.second = 0)
    (he : dtSecs v = dtSecs v') : v = v' := by
  obtain ⟨hd, hh, -, -⟩ := id hv
  obtain ⟨hd', hh', -, -⟩ := id hv'
  have hsecs := he
  unfold dtSecs at hsecs
  rw [hm, hs, hm', hs'] at hsecs
  have hT : toDays v.date = toDays v'.date := by omega
  have hhe : v.hour = v'.hour := by omega
  have hde : v.date = v'.date := toDays_inj _ _ hd hd' hT
  cases v
  cases v'
  dsimp only at hde hhe hm hs hm' hs'
  rw [hde, hhe, hm, hm', hs, hs']

theorem hourFacts : PeriodFacts "hour" HourShape where
  shape_key := by
    intro v hv
    exact ⟨⟨v.date, v.hour, 0, 0⟩, rfl, ⟨hv.1, hv.2.1, by dsimp only; omega,
      by dsimp only; omega⟩, rfl, rfl⟩
  shape_step := by
    rintro k ⟨v, rfl, hv, hm0, hs0⟩
    obtain ⟨h1, h2, h3, h4⟩ := addHour_secs v hv
    exact ⟨addHour v, rfl, h1, by rw [h3, hm0], by rw [h4, hs0]⟩
  idx_step := by
    rintro k ⟨v, rfl, hv, hm0, hs0⟩
    obtain ⟨h1, h2, -, -⟩ := addHour_secs v hv
    show (dtSecs v : Int) < (dtSecs (addHour v) : Int)
    omega
  key_mono := by
    intro a b ha hb hab
    show (dtSecs ⟨a.date, a.hour, 0, 0⟩ : Int) ≤ (dtSecs ⟨b.date, b.hour, 0, 0⟩ : Int)
    obtain ⟨-, ha1, ha2, ha3⟩ := id ha
    obtain ⟨-, hb1, hb2, hb3⟩ := id hb
    unfold dtSecs at hab ⊢
    dsimp only
    omega
  idx_inj := by
    rintro k k' ⟨v, rfl, hv, hm0, hs0⟩ ⟨v', rfl, hv', hm0', hs0'⟩ he
    have heq : dtSecs v = dtSecs v' := by
      have h2 : (dtSecs v : Int) = (dtSecs v' : Int) := he
      omega
    rw [dtSecs_inj_aligned v v' hv hv' hm0 hs0 hm0' hs0' heq]
  connect := by
    rintro k k' ⟨v, rfl, hv, hm0, hs0⟩ ⟨v', rfl, hv', hm0', hs0'⟩ hlt
    have hTT : dtSecs v < dtSecs v' := by
      have h2 : (dtSecs v : Int) < (dtSecs v' : Int) := hlt
      omega
    have hdvd : (dtSecs v' - dtSecs v) % 3600 = 0 := by
      unfold dtSecs
      rw [hm0, hs0, hm0', hs0']
      omega
    refine ⟨(dtSecs v' - dtSecs v) / 3600, by omega, ?_⟩
    obtain ⟨u, he, huv, hum, hus, huT⟩ :=
      hour_iter v hv hm0 hs0 ((dtSecs v' - dtSecs v) / 3600)
    rw [he]
    have hfin : u = v' :=
      dtSecs_inj_aligned u v' huv hv' hum hus hm0' hs0' (by omega)
    rw [hfin]

/-! ## Claim C7: assembly -/

theorem getLastD_of_getLast? (l : List PKey) (a q : PKey)
    (h : l.getLast? = some q) : l.getLastD a = q := by
  rw [List.getLastD_eq_getLast? a l, h]
  rfl

theorem stepGrid_succ (period : String) (k : PKey) (m : Nat) :
    stepGrid period k (m + 1) = k :: stepGrid period (periodStep period k) m := by
  unfold stepGrid
  rw [List.range_succ_eq_map, List.map_cons, List.map_map]
  have h0 : (periodStep period)^[0] k = k := rfl
  rw [h0]
  congr 1

theorem chainLt_grid {period : String} {Shape : PKey → Prop}
    (F : PeriodFacts period Shape) :
    ∀ (n : Nat) (k : PKey), Shape k → ChainLtKeys (stepGrid period k n) := by
  intro n
  induction n with
  | zero => intro k _; trivial
  | succ m ih =>
    intro k hk
    rw [stepGrid_succ]
    cases m with
    | zero => trivial
    | succ j =>
      rw [stepGrid_succ]
      refine ⟨F.idx_step k hk, ?_⟩
      rw [← stepGrid_succ]
      exact ih (periodStep period k) (F.shape_step k hk)

/-- The full gap-free grid result for any granularity satisfying the
period facts: the output key list is exactly the step grid from the first
message's bucket, it ends at the last message's bucket, it is strictly
increasing, and keys matching no message carry value 0. -/
theorem grid_assembly {period : String} {Shape : PKey → Prop}
    (F : PeriodFacts period Shape) (counter : String)
    (st : AnalyserState) (m0 : Message) (rest : List Message)
    (hmsgs : st.messages = m0 :: rest)
    (hord : ChronOrder st.messages)
    (hval : ∀ m ∈ st.messages, m.dt.Valid) :
    ∃ n : Nat,
      (countPerPeriod st counter period).map Prod.fst =
        stepGrid period (periodOf period m0.dt) (n + 1) ∧
      (periodStep period)^[n] (periodOf period m0.dt) =
        periodOf period (st.messages.getLastD m0).dt ∧
      ChainLtKeys ((countPerPeriod st counter period).map Prod.fst) ∧
      (∀ p ∈ countPerPeriod st counter period,
        p.1 ∉ messageKeys period st.messages → p.2 = 0) := by
  have hvm0 : m0.dt.Valid := hval m0 (by rw [hmsgs]; exact List.mem_cons_self _ _)
  have hvrest : ∀ m ∈ rest, m.dt.Valid := fun m hm =>
    hval m (by rw [hmsgs]; exact List.mem_cons_of_mem _ hm)
  have hordc : ChronOrder (m0 :: rest) := by rw [← hmsgs]; exact hord
  have hsk0 : Shape (periodOf period m0.dt) := F.shape_key m0.dt hvm0
  have hnil : ({} : AggAcc).dates = [] := rfl
  have hdates1 : (accumStep counter period {} m0).dates =
      [periodOf period m0.dt] := by
    show (if periodOf period m0.dt ∈ ({} : AggAcc).dates then ({} : AggAcc).dates
          else ({} : AggAcc).dates ++ [periodOf period m0.dt]) =
        [periodOf period m0.dt]
    rw [hnil, if_neg (List.not_mem_nil _)]
    rfl
  have hsh1 : ∀ k ∈ (accumStep counter period {} m0).dates, Shape k := by
    intro k hk
    rw [hdates1, List.mem_singleton] at hk
    rw [hk]
    exact hsk0
  have hch1 : ChainLtKeys (accumStep counter period {} m0).dates := by
    rw [hdates1]
    trivial
  have hlast1 : (accumStep counter period {} m0).dates.getLast? =
      some (periodOf period m0.dt) := by
    rw [hdates1]
    rfl
  have hbd1 : ∀ k ∈ (accumStep counter period {} m0).dates,
      keyIdx k ≤ keyIdx (periodOf period m0.dt) := by
    intro k hk
    rw [hdates1, List.mem_singleton] at hk
    rw [hk]
  obtain ⟨s1, s2, s3, s4⟩ := accum_chain F counter rest
    (accumStep counter period {} m0) m0 hvm0 hvrest hordc hsh1 hch1 hlast1 hbd1
  have hfold : st.messages.foldl (accumStep counter period) {} =
      rest.foldl (accumStep counter period) (accumStep counter period {} m0) := by
    rw [hmsgs, List.foldl_cons]
  have hhead : (rest.foldl (accumStep counter period)
      (accumStep counter period {} m0)).dates.head? =
      some (periodOf period m0.dt) := by
    rw [s4, hdates1]
    rfl
  obtain ⟨tail, htail⟩ : ∃ tail, (rest.foldl (accumStep counter period)
      (accumStep counter period {} m0)).dates =
      periodOf period m0.dt :: tail := by
    cases hd : (rest.foldl (accumStep counter period)
        (accumStep counter period {} m0)).dates with
    | nil =>
      rw [hd] at hhead
      cases hhead
    | cons a t =>
      rw [hd] at hhead
      have ha : a = periodOf period m0.dt := by
        have h2 : some a = some (periodOf period m0.dt) := hhead
        exact Option.some.inj h2
      exact ⟨t, by rw [ha]⟩
  obtain ⟨M, hgrid, hlastD⟩ := buildOut_grid F
    (rest.foldl (accumStep counter period) (accumStep counter period {} m0)).counts
    tail (periodOf period m0.dt) hsk0
    (fun k hk => s1 k (by rw [htail]; exact List.mem_cons_of_mem _ hk))
    (by rw [← htail]; exact s2)
  have hcpp : countPerPeriod st counter period =
      (periodOf period m0.dt,
        (rest.foldl (accumStep counter period)
          (accumStep counter period {} m0)).counts (periodOf period m0.dt)) ::
      buildOut period
        (rest.foldl (accumStep counter period)
          (accumStep counter period {} m0)).counts
        tail (some (periodOf period m0.dt)) := by
    unfold countPerPeriod
    dsimp only
    rw [hfold, htail]
    rfl
  have hmapgrid : (countPerPeriod st counter period).map Prod.fst =
      stepGrid period (periodOf period m0.dt) (M + 1) := by
    rw [hcpp, List.map_cons, hgrid]
    unfold stepGrid
    rw [List.range_succ_eq_map, List.map_cons, List.map_map]
    have h0 : (periodStep period)^[0] (periodOf period m0.dt) =
        periodOf period m0.dt := rfl
    rw [h0]
    congr 1
  refine ⟨M, hmapgrid, ?_, ?_, ?_⟩
  · have hs3' : (periodOf period m0.dt :: tail).getLast? =
        some (periodOf period (rest.getLastD m0).dt) := by
      rw [← htail]
      exact s3
    have hq : (periodOf period m0.dt :: tail).getLastD (periodOf period m0.dt) =
        periodOf period (rest.getLastD m0).dt :=
      getLastD_of_getLast? _ _ _ hs3'
    rw [List.getLastD_cons] at hq
    rw [hmsgs, List.getLastD_cons, ← hq, hlastD]
  · rw [hmapgrid]
    exact chainLt_grid F (M + 1) _ hsk0
  · intro p hp hnot
    have hbo : countPerPeriod st counter period = buildOut period
        (rest.foldl (accumStep counter period)
          (accumStep counter period {} m0)).counts
        (rest.foldl (accumStep counter period)
          (accumStep counter period {} m0)).dates
        none := by
      unfold countPerPeriod
      dsimp only
      rw [hfold]
    have hp' : p ∈ buildOut period
        (rest.foldl (accumStep counter period)
          (accumStep counter period {} m0)).counts
        (rest.foldl (accumStep counter period)
          (accumStep counter period {} m0)).dates
        none := by
      rw [← hbo]
      exact hp
    rcases buildOut_values period _ _ _ p hp' with h0 | hin
    · exact h0
    · exfalso
      have hin' : p.1 ∈ (st.messages.foldl (accumStep counter period) {}).dates := by
        rw [hfold]
        exact hin
      rcases accum_sub counter period st.messages {} p.1 hin' with hn | hk
      · rw [hnil] at hn
        cases hn
      · exact hnot hk

/-- C7: for every non-empty message sequence with non-decreasing (and
valid) timestamps and each supported counter and granularity, the series
returned by `count_per_period` lists exactly one bucket per granularity
step: its key sequence is the step grid of some length n + 1 starting at
the first message's bucket, the n-th step lands on the last message's
bucket, the keys are strictly ascending (hence no gaps, no duplicates),
and every bucket matching no message has value 0. -/
theorem C7_grid (st : AnalyserState) (counter period : String)
    (m0 : Message) (rest : List Message)
    ( hc : counter = "messages" ∨ counter = "words")
    (hp : period = "hour" ∨ period = "day" ∨ period = "week" ∨ period = "month")
    (hmsgs : st.messages = m0 :: rest)
    (hord : ChronOrder st.messages)
    (hval : ∀ m ∈ st.messages, m.dt.Valid) :
    ∃ n : Nat,
      (countPerPeriod st counter period).map Prod.fst =
        stepGrid period (periodOf period m0.dt) (n + 1) ∧
      (periodStep period)^[n] (periodOf period m0.dt) =
        periodOf period (st.messages.getLastD m0).dt ∧
      ChainLtKeys ((countPerPeriod st counter period).map Prod.fst) ∧
      (∀ p ∈ countPerPeriod st counter period,
        p.1 ∉ messageKeys period st.messages → p.2 = 0) := by
  clear hc
  rcases hp with h | h | h | h
  · subst h
    exact grid_assembly hourFacts counter st m0 rest hmsgs hord hval
  · subst h
    exact grid_assembly dayFacts counter st m0 rest hmsgs hord hval
  · subst h
    exact grid_assembly weekFacts counter st m0 rest hmsgs hord hval
  · subst h
    exact grid_assembly monthFacts counter st m0 rest hmsgs hord hval

/-- Concrete instantiation of the C7 grid theorem: messages on 2024-01-01
and 2024-01-05 only, at day granularity, produce the five-day grid with
the gap days valued 0. -/
theorem C7_grid_w :
    ∃ n : Nat,
      (countPerPeriod ⟨[⟨⟨⟨2024, 1, 1⟩, 10, 0, 0⟩, "alice", "hi", 0, none⟩,
            ⟨⟨⟨2024, 1, 5⟩, 9, 0, 0⟩, "bob", "yo", 0, some 0⟩], []⟩
          "messages" "day").map Prod.fst =
        stepGrid "day" (periodOf "day" ⟨⟨2024, 1, 1⟩, 10, 0, 0⟩) (n + 1) ∧
      (periodStep "day")^[n] (periodOf "day" ⟨⟨2024, 1, 1⟩, 10, 0, 0⟩) =
        periodOf "day" ⟨⟨2024, 1, 5⟩, 9, 0, 0⟩ ∧
      ChainLtKeys ((countPerPeriod ⟨[⟨⟨⟨2024, 1, 1⟩, 10, 0, 0⟩, "alice", "hi",
            0, none⟩, ⟨⟨⟨2024, 1, 5⟩, 9, 0, 0⟩, "bob", "yo", 0, some 0⟩], []⟩
          "messages" "day").map Prod.fst) ∧
      (∀ p ∈ countPerPeriod ⟨[⟨⟨⟨2024, 1, 1⟩, 10, 0, 0⟩, "alice", "hi", 0,
            none⟩, ⟨⟨⟨2024, 1, 5⟩, 9, 0, 0⟩, "bob", "yo", 0, some 0⟩], []⟩
          "messages" "day",
        p.1 ∉ messageKeys "day" [⟨⟨⟨2024, 1, 1⟩, 10, 0, 0⟩, "alice", "hi", 0,
            none⟩, ⟨⟨⟨2024, 1, 5⟩, 9, 0, 0⟩, "bob", "yo", 0, some 0⟩] →
          p.2 = 0) :=
  C7_grid ⟨[⟨⟨⟨2024, 1, 1⟩, 10, 0, 0⟩, "alice", "hi", 0, none⟩,
      ⟨⟨⟨2024, 1, 5⟩, 9, 0, 0⟩, "bob", "yo", 0, some 0⟩], []⟩ "messages" "day"
    ⟨⟨⟨2024, 1, 1⟩, 10, 0, 0⟩, "alice", "hi", 0, none⟩
    [⟨⟨⟨2024, 1, 5⟩, 9, 0, 0⟩, "bob", "yo", 0, some 0⟩]
    (Or.inl rfl) (Or.inr (Or.inl rfl)) rfl (by decide) (by decide)

end KakaoSpec

